import Mathlib

/-!
Verification development for the relationship-dashboard data layer.

The Python sources under `relationship_dashboard/` are shallowly embedded:
dates become a `PDate` structure of numerals, strings stay `String`
(manipulated as `List Char`), pandas dataframes become either lists of
structured records (the fixed file schema) or lists of association lists
(when the column mechanics themselves matter), and fallible operations
return `Option` / `Except`.
-/

namespace Dashboard

/-- A calendar date, mirroring Python `datetime.date` (valid dates have
`1 ≤ year ≤ 9999`, `1 ≤ month ≤ 12`, `1 ≤ day ≤ daysInMonth`).  Comparison
of dates is lexicographic on `(year, month, day)`, as for Python `date`. -/
structure PDate where
  year : Nat
  month : Nat
  day : Nat
deriving DecidableEq, Repr

/-- Gregorian leap-year test (`calendar.isleap`). -/
def isLeap (y : Nat) : Bool :=
  (y % 4 == 0 && y % 100 != 0) || y % 400 == 0

/-- Number of days in a month of a given year. -/
def daysInMonth (y m : Nat) : Nat :=
  if m == 2 then (if isLeap y then 29 else 28)
  else if m == 4 || m == 6 || m == 9 || m == 11 then 30
  else 31

/-- Validity predicate matching the domain of Python `datetime.date`. -/
def PDate.valid (d : PDate) : Bool :=
  1 ≤ d.year && d.year ≤ 9999 && 1 ≤ d.month && d.month ≤ 12 &&
    1 ≤ d.day && d.day ≤ daysInMonth d.year d.month

/-- `a ≤ b` on dates: lexicographic on `(year, month, day)`, exactly the
order Python `date` objects compare in. -/
def PDate.ble (a b : PDate) : Bool :=
  a.year < b.year ||
    (a.year == b.year &&
      (a.month < b.month || (a.month == b.month && a.day ≤ b.day)))

/-- `a < b` on dates, lexicographic. -/
def PDate.blt (a b : PDate) : Bool :=
  a.year < b.year ||
    (a.year == b.year &&
      (a.month < b.month || (a.month == b.month && a.day < b.day)))

/-- The character for a decimal digit (`0 ↦ '0'`, ..., `9 ↦ '9'`). -/
def digitChar : Nat → Char
  | 0 => '0' | 1 => '1' | 2 => '2' | 3 => '3' | 4 => '4'
  | 5 => '5' | 6 => '6' | 7 => '7' | 8 => '8' | _ => '9'

/-- Numeric value of a run of decimal digit characters. -/
def digitsVal (cs : List Char) : Nat :=
  cs.foldl (fun acc c => acc * 10 + (c.toNat - 48)) 0

/-- Two-digit zero-padded decimal rendering (as characters), as produced by
Python `date.isoformat` for months and days. -/
def pad2chars (n : Nat) : List Char :=
  [digitChar (n / 10 % 10), digitChar (n % 10)]

/-- Four-digit zero-padded decimal rendering (as characters), as produced by
Python `date.isoformat` for years. -/
def pad4chars (n : Nat) : List Char :=
  [digitChar (n / 1000 % 10), digitChar (n / 100 % 10),
   digitChar (n / 10 % 10), digitChar (n % 10)]

/-- `date.isoformat`: the `YYYY-MM-DD` rendering of a date. -/
def PDate.isoformat (d : PDate) : String :=
  ⟨pad4chars d.year ++ ('-' :: (pad2chars d.month ++ ('-' :: pad2chars d.day)))⟩

/-- Drop leading and trailing whitespace, modelling Python `str.strip()`. -/
def trimChars (cs : List Char) : List Char :=
  ((cs.dropWhile Char.isWhitespace).reverse.dropWhile Char.isWhitespace).reverse

/-- `helpers.normalize_text` restricted to string inputs: stripping
surrounding whitespace (the `None` / NaN / datetime branches of the Python
function concern non-string values that never reach the embedded paths). -/
def normalize_text (s : String) : String :=
  ⟨trimChars s.data⟩

/-- Split a character list on a separator character; `splitOnChar sep cs`
returns the (possibly empty) runs between occurrences of `sep`. -/
def splitOnChar (sep : Char) : List Char → List (List Char)
  | [] => [[]]
  | c :: rest =>
    let r := splitOnChar sep rest
    if c = sep then [] :: r
    else
      match r with
      | [] => [[c]]
      | h :: t => (c :: h) :: t

/-- A token of exactly `n` decimal digits (CPython `strptime`'s `%Y` is
exactly four digits). -/
def parseFixedDigits (n : Nat) (cs : List Char) : Option Nat :=
  if cs.length == n && cs.all Char.isDigit then some (digitsVal cs) else none

/-- A token of one or two decimal digits. -/
def parse1or2Digits (cs : List Char) : Option Nat :=
  if (cs.length == 1 || cs.length == 2) && cs.all Char.isDigit then
    some (digitsVal cs)
  else none

/-- CPython `strptime` `%m`: one or two digits with value 1..12. -/
def parseMonthTok (cs : List Char) : Option Nat :=
  (parse1or2Digits cs).bind fun m =>
    if 1 ≤ m && m ≤ 12 then some m else none

/-- CPython `strptime` `%d`: one or two digits with value 1..31 (the
space-padded single-digit alternative of the CPython regex is omitted; no
embedded input contains an interior space). -/
def parseDayTok (cs : List Char) : Option Nat :=
  (parse1or2Digits cs).bind fun d =>
    if 1 ≤ d && d ≤ 31 then some d else none

/-- The Python `datetime.date` constructor: `some` exactly on valid dates,
`none` where Python raises `ValueError`. -/
def mkPyDate (y m d : Nat) : Option PDate :=
  if 1 ≤ y && y ≤ 9999 && 1 ≤ m && m ≤ 12 && 1 ≤ d && d ≤ daysInMonth y m
  then some ⟨y, m, d⟩ else none

/-- `strptime` against `"%Y<sep>%m<sep>%d"` followed by date construction. -/
def tryFormatYMD (sep : Char) (cs : List Char) : Option PDate :=
  match splitOnChar sep cs with
  | [ys, ms, ds] => do
    let y ← parseFixedDigits 4 ys
    let m ← parseMonthTok ms
    let d ← parseDayTok ds
    mkPyDate y m d
  | _ => none

/-- `strptime` against `"%m<sep>%d<sep>%Y"` followed by date construction. -/
def tryFormatMDY (sep : Char) (cs : List Char) : Option PDate :=
  match splitOnChar sep cs with
  | [ms, ds, ys] => do
    let y ← parseFixedDigits 4 ys
    let m ← parseMonthTok ms
    let d ← parseDayTok ds
    mkPyDate y m d
  | _ => none

/-- The `^(\d{4})-(\d{1,2})$` year-month branch of `parse_date`: day
defaults to 1.  (Python calls `date(year, month, 1)` outside any handler;
construction failure — only possible for year `0000` — is modelled as a
parse failure rather than a propagated exception.) -/
def tryYearMonth (cs : List Char) : Option PDate :=
  match splitOnChar '-' cs with
  | [ys, ms] => do
    let y ← parseFixedDigits 4 ys
    let m ← parse1or2Digits ms
    if 1 ≤ m && m ≤ 12 then mkPyDate y m 1 else none
  | _ => none

/-- The `^(\d{4})$` year-only branch: January 1 of that year. -/
def tryYearOnly (cs : List Char) : Option PDate :=
  (parseFixedDigits 4 cs).bind fun y => mkPyDate y 1 1

/-- The `^(\d{1,2})$` month-only branch: the first of that month in the
current year (`date.today().year` is threaded in as `todayYear`). -/
def tryMonthOnly (todayYear : Nat) (cs : List Char) : Option PDate :=
  (parse1or2Digits cs).bind fun m =>
    if 1 ≤ m && m ≤ 12 then mkPyDate todayYear m 1 else none

/-- An `HH:MM` or `HH:MM:SS` time-of-day suffix as accepted by
`datetime.fromisoformat` (fractional seconds and UTC offsets are omitted;
no claim exercises them). -/
def validTimeSuffix (cs : List Char) : Bool :=
  match splitOnChar ':' cs with
  | [hs, ms] =>
    (parseFixedDigits 2 hs).any (· ≤ 23) && (parseFixedDigits 2 ms).any (· ≤ 59)
  | [hs, ms, ss] =>
    (parseFixedDigits 2 hs).any (· ≤ 23) && (parseFixedDigits 2 ms).any (· ≤ 59)
      && (parseFixedDigits 2 ss).any (· ≤ 59)
  | _ => false

/-- Model of `datetime.fromisoformat(...).date()`: a zero-padded
`YYYY-MM-DD` date part, optionally followed by one separator character and
a time of day. -/
def fromisoformat_model (cs : List Char) : Option PDate :=
  if cs.length < 10 then none
  else if (match cs.drop 10 with | [] => true | _ :: t => validTimeSuffix t) then
    match splitOnChar '-' (cs.take 10) with
    | [ys, ms, ds] => do
      let y ← parseFixedDigits 4 ys
      let m ← parseFixedDigits 2 ms
      let d ← parseFixedDigits 2 ds
      mkPyDate y m d
    | _ => none
  else none

/-- `helpers.parse_date` on string inputs: strip, then try in order the
four `strptime` formats (`%Y-%m-%d`, `%Y/%m/%d`, `%m/%d/%Y`, `%m-%d-%Y`),
the year-month and year-only and month-only regex branches, and finally
`datetime.fromisoformat`. -/
def parse_date (todayYear : Nat) (value : String) : Option PDate :=
  let raw := (normalize_text value).data
  if raw.isEmpty then none
  else
    tryFormatYMD '-' raw <|> tryFormatYMD '/' raw <|>
    tryFormatMDY '/' raw <|> tryFormatMDY '-' raw <|>
    tryYearMonth raw <|> tryYearOnly raw <|>
    tryMonthOnly todayYear raw <|> fromisoformat_model raw

/-- `validation_service.MIN_ALLOWED_DATE = date(2022, 1, 1)`. -/
def MIN_ALLOWED_DATE : PDate := ⟨2022, 1, 1⟩

/-- The regex `^\d{4}-\d{2}-\d{2}$` (`STRICT_ISO_DATE_PATTERN.fullmatch`). -/
def strictIsoMatch (cs : List Char) : Bool :=
  match splitOnChar '-' cs with
  | [ys, ms, ds] =>
    ys.length == 4 && ys.all Char.isDigit &&
    ms.length == 2 && ms.all Char.isDigit &&
    ds.length == 2 && ds.all Char.isDigit
  | _ => false

/-- `validation_service.validate_optional_date`, with `today` injected for
determinism.  Returns `(is_valid, error_message, normalized_value)`. -/
def validate_optional_date (today : PDate) (value : String)
    (field_name : String) (strict_iso : Bool) : Bool × String × String :=
  if normalize_text value = "" then (true, "", "")
  else if strict_iso && !strictIsoMatch (normalize_text value).data then
    (false, field_name ++ " must be in YYYY-MM-DD format.", "")
  else
    match parse_date today.year value with
    | none =>
      if strict_iso then
        (false, field_name ++ " must be a valid date in YYYY-MM-DD format.", "")
      else
        (false, field_name ++ " must be a valid date (YYYY-MM-DD, YYYY-MM, or YYYY).", "")
    | some parsed =>
      if parsed.blt MIN_ALLOWED_DATE then
        (false, field_name ++ " cannot be before " ++ MIN_ALLOWED_DATE.isoformat ++ ".", "")
      else if today.blt parsed then
        (false, field_name ++ " cannot be in the future.", "")
      else (true, "", parsed.isoformat)

/-- `validation_service.validate_comment`: always valid, normalized by
stripping. -/
def validate_comment (value : String) : Bool × String × String :=
  (true, "", normalize_text value)

/-- The four editable values of a payload (normalized or raw). -/
structure EditValues where
  review_date : String
  layer_date : String
  test_date : String
  comment : String
deriving DecidableEq, Repr

/-- `validation_service.validate_edit_payload`: validate the three date
fields (test-date strictly) and the comment in order, stopping at the
first failure.  Returns `(valid, error, normalized)`. -/
def validate_edit_payload (today : PDate) (review_date layer_date test_date comment : String) :
    Bool × Option String × EditValues :=
  match validate_optional_date today review_date "review_date" false with
  | (false, err, _) => (false, some err, ⟨"", "", "", ""⟩)
  | (true, _, review_value) =>
    match validate_optional_date today layer_date "layer_date" false with
    | (false, err, _) => (false, some err, ⟨"", "", "", ""⟩)
    | (true, _, layer_value) =>
      match validate_optional_date today test_date "test_date" true with
      | (false, err, _) => (false, some err, ⟨"", "", "", ""⟩)
      | (true, _, test_value) =>
        match validate_comment comment with
        | (false, err, _) => (false, some err, ⟨"", "", "", ""⟩)
        | (true, _, comment_value) =>
          (true, none, ⟨review_value, layer_value, test_value, comment_value⟩)

/-- `today - relativedelta(months=12)`: same month one year earlier, day
clamped to the length of the target month (dateutil's behaviour). -/
def subMonths12 (d : PDate) : PDate :=
  ⟨d.year - 1, d.month, min d.day (daysInMonth (d.year - 1) d.month)⟩

/-- The next calendar day (a statement-side helper used to phrase the
"12 months minus 1 day" boundary; not part of the source). -/
def addDay1 (d : PDate) : PDate :=
  if d.day < daysInMonth d.year d.month then ⟨d.year, d.month, d.day + 1⟩
  else if d.month < 12 then ⟨d.year, d.month + 1, 1⟩
  else ⟨d.year + 1, 1, 1⟩

/-- `data_loader._compute_status` with the clock injected: MISSING when the
review date does not parse, OVERDUE when it is on or before
`today - relativedelta(months=12)`, ACTIVE otherwise. -/
def _compute_status (today : PDate) (review_date : String) : String :=
  match parse_date today.year review_date with
  | none => "MISSING"
  | some parsed =>
    if parsed.ble (subMonths12 today) then "OVERDUE" else "ACTIVE"

/-! ## Catalog rows and deduplication (`data_loader.deduplicate_latest_clients`) -/

/-- One catalog row after `load_clients`: the `REQUIRED_CLIENT_COLUMNS`
string fields plus the `_row_order` position assigned at load time. -/
structure CatalogRow where
  client_id : String
  tag : String
  region : String
  region1 : String
  region2 : String
  pod : String
  CA : String
  RM : String
  review_cawb : String
  SG : String
  layer : String
  row_order : Nat
deriving DecidableEq, Repr

/-- One step of the first-argmax scan (keep the earlier row on ties). -/
def argmaxFirstStep (f : CatalogRow → Nat) (acc : Option CatalogRow)
    (r : CatalogRow) : Option CatalogRow :=
  match acc with
  | none => some r
  | some b => if f b < f r then some r else some b

/-- First row attaining the maximum of `f` (pandas `Series.idxmax` keeps
the first occurrence of the maximum). -/
def argmaxFirstBy (f : CatalogRow → Nat) (rows : List CatalogRow) : Option CatalogRow :=
  rows.foldl (argmaxFirstStep f) none

/-- One step of the last-argmax scan (keep the later row on ties). -/
def argmaxLastStep (f : CatalogRow → Nat) (acc : Option CatalogRow)
    (r : CatalogRow) : Option CatalogRow :=
  match acc with
  | none => some r
  | some b => if f b ≤ f r then some r else some b

/-- Last row attaining the maximum of `f` (a stable ascending sort followed
by `groupby(...).tail(1)` keeps the last occurrence of the maximum). -/
def argmaxLastBy (f : CatalogRow → Nat) (rows : List CatalogRow) : Option CatalogRow :=
  rows.foldl (argmaxLastStep f) none

/-- One step of the maximum-date scan over parseable review dates. -/
def maxDateStep (toDt : String → Option PDate) (acc : Option PDate)
    (r : CatalogRow) : Option PDate :=
  match toDt r.review_cawb with
  | none => acc
  | some d =>
    match acc with
    | none => some d
    | some m => if m.ble d then some d else some m

/-- Maximum parsed review date over rows on which `toDt` succeeds. -/
def maxDateOf (toDt : String → Option PDate) (rows : List CatalogRow) : Option PDate :=
  rows.foldl (maxDateStep toDt) none

/-- `pick_latest_row` from `deduplicate_latest_clients`: among the group's
rows with a parseable review date pick the maximal date and break ties by
the largest `_row_order` (`idxmax`); with no parseable date fall back to
the largest `_row_order` overall.  `toDt` abstracts `pd.to_datetime(...,
errors="coerce")`, of which only parse success and date ordering matter. -/
def pick_latest_row (toDt : String → Option PDate) (group : List CatalogRow) :
    Option CatalogRow :=
  match maxDateOf toDt (group.filter (fun r => (toDt r.review_cawb).isSome)) with
  | some maxDate =>
    argmaxFirstBy (·.row_order)
      ((group.filter (fun r => (toDt r.review_cawb).isSome)).filter
        (fun r => toDt r.review_cawb == some maxDate))
  | none => argmaxFirstBy (·.row_order) group

/-- Distinct elements of a list, keeping first occurrences in order;
`seen` accumulates the keys already emitted. -/
def uniqueKeysAux (seen : List String) : List String → List String
  | [] => []
  | x :: xs =>
    if seen.contains x then uniqueKeysAux seen xs
    else x :: uniqueKeysAux (x :: seen) xs

/-- Distinct elements of a list, keeping first occurrences in order. -/
def uniqueKeys (l : List String) : List String :=
  uniqueKeysAux [] l

/-- Ordering of catalog rows by `client_id` (for the final
`sort_values("client_id")`; ids are distinct at that point, so stability
is irrelevant). -/
def rowLe (a b : CatalogRow) : Prop := a.client_id ≤ b.client_id

instance : DecidableRel rowLe :=
  fun a b => inferInstanceAs (Decidable (a.client_id ≤ b.client_id))

instance : IsTotal CatalogRow rowLe := ⟨fun a b => le_total a.client_id b.client_id⟩

instance : IsTrans CatalogRow rowLe := ⟨fun _ _ _ h1 h2 => le_trans h1 h2⟩

/-- The deduplicated row for one client id: the `pick_latest_row` winner
with `review_cawb`, `region`, `region1` and `region2` overwritten from the
client's last physical occurrence (largest `_row_order`; the Python builds
that frame with a stable sort on `_row_order` plus `groupby(...).tail(1)`).
Note that `pod` is NOT among the overwritten columns. -/
def dedupRowFor (toDt : String → Option PDate) (rows : List CatalogRow)
    (cid : String) : Option CatalogRow :=
  match pick_latest_row toDt (rows.filter (fun r => r.client_id == cid)),
        argmaxLastBy (·.row_order) (rows.filter (fun r => r.client_id == cid)) with
  | some w, some l =>
    some { w with review_cawb := l.review_cawb, region := l.region,
                  region1 := l.region1, region2 := l.region2 }
  | _, _ => none

/-- `deduplicate_latest_clients`: one row per client id, sorted by client
id (`sort_values("client_id")`). -/
def deduplicate_latest_clients (toDt : String → Option PDate)
    (rows : List CatalogRow) : List CatalogRow :=
  List.insertionSort rowLe
    ((uniqueKeys (rows.map (·.client_id))).filterMap (dedupRowFor toDt rows))

/-- `pd.to_datetime(..., errors="coerce")` restricted to zero-padded ISO
`YYYY-MM-DD` strings — the only shape appearing in the claims' catalog
inputs; every other input is treated as unparseable. -/
def pdToDatetimeISO (s : String) : Option PDate :=
  tryFormatYMD '-' (trimChars s.data)

/-- Modelled from the spec: the three input shapes the claim says are the
only accepted ones — `YYYY-MM-DD`, `YYYY-MM`, bare `YYYY` — read
liberally (month and day components may be unpadded). -/
def spec_three_shapes (s : String) : Bool :=
  match splitOnChar '-' (normalize_text s).data with
  | [ys] => ys.length == 4 && ys.all Char.isDigit
  | [ys, ms] =>
    ys.length == 4 && ys.all Char.isDigit &&
      (ms.length == 1 || ms.length == 2) && ms.all Char.isDigit
  | [ys, ms, ds] =>
    ys.length == 4 && ys.all Char.isDigit &&
      (ms.length == 1 || ms.length == 2) && ms.all Char.isDigit &&
      (ds.length == 1 || ds.length == 2) && ds.all Char.isDigit
  | _ => false

/-- The selection rule of the deduplication claim, as a predicate on the
winner `w` of a group `g`: among rows with a parseable review date pick
the maximum date breaking ties by maximum row order, and with no parseable
date pick the maximum row order overall. -/
def isLatestPickSpec (toDt : String → Option PDate) (g : List CatalogRow)
    (w : CatalogRow) : Prop :=
  w ∈ g ∧
  ((∃ r ∈ g, (toDt r.review_cawb).isSome = true) →
    (toDt w.review_cawb).isSome = true ∧
    (∀ r ∈ g, ∀ dr dw, toDt r.review_cawb = some dr → toDt w.review_cawb = some dw →
      dr.ble dw = true) ∧
    (∀ r ∈ g, toDt r.review_cawb = toDt w.review_cawb → r.row_order ≤ w.row_order)) ∧
  ((∀ r ∈ g, toDt r.review_cawb = none) → ∀ r ∈ g, r.row_order ≤ w.row_order)

/-! ## The edit log as structured records

`USER_INPUT_COLUMNS` (config.py) fixes the stored schema:
`entry_id, client_id, review_date, layer_date, comment, changed_by,
change_timestamp, is_active, previous_entry_id` — note that it contains
no `test_date` column.  `EditEntry` mirrors exactly these columns, with
`is_active` held as the boolean it becomes after the truthy-string
normalization (serialization writes it back as `"True"` / `"False"`). -/

/-- One stored edit-log row (schema = `USER_INPUT_COLUMNS`). -/
structure EditEntry where
  entry_id : String
  client_id : String
  review_date : String
  layer_date : String
  comment : String
  changed_by : String
  change_timestamp : String
  is_active : Bool
  previous_entry_id : String
deriving DecidableEq, Repr

/-- Observable store effects, used to witness that rejected payloads abort
before the lock is taken and before anything is written. -/
inductive StoreEvent where
  | lockAcquired
  | editLogWrite
  | auditLogWrite
deriving DecidableEq, Repr

/-- Flip `is_active` to false on the rows the `active_mask` selects
(`user_inputs_df.loc[active_mask, "is_active"] = False`). -/
def deactivateFor (client_id : String) (e : EditEntry) : EditEntry :=
  if e.client_id == client_id && e.is_active then { e with is_active := false } else e

/-- One step of the maximum-timestamp scan: keep the later row on ties. -/
def latestStep (acc : Option EditEntry) (e : EditEntry) : Option EditEntry :=
  match acc with
  | none => some e
  | some b => if b.change_timestamp ≤ e.change_timestamp then some e else some b

/-- The row with the greatest `change_timestamp`, keeping the last such row
(the Python sorts ascending by `change_timestamp` and takes `iloc[-1]`;
ISO timestamps compare lexicographically as the source notes). -/
def latestActive (rows : List EditEntry) : Option EditEntry :=
  rows.foldl latestStep none

/-- The old values `persist_user_edit` captures for a client: the fields
of the latest-by-timestamp active row, all-empty when none exists.  The
`test_date` snapshot is always `""` because the stored schema has no
`test_date` column (`previous_active.get("test_date", "")`). -/
def oldValuesOf (log : List EditEntry) (cid : String) : EditValues :=
  match latestActive (log.filter fun e => e.client_id == cid && e.is_active) with
  | none => ⟨"", "", "", ""⟩
  | some p => ⟨p.review_date, p.layer_date, "", p.comment⟩

/-- The `previous_entry_id` back-reference `persist_user_edit` records. -/
def prevEntryIdOf (log : List EditEntry) (cid : String) : String :=
  match latestActive (log.filter fun e => e.client_id == cid && e.is_active) with
  | none => ""
  | some p => p.entry_id

/-- `data_loader.persist_user_edit` over the record-level log, with clock
and fresh-id generation injected (`entry_id` stands for `uuid4()`,
`timestamp` for `iso_now()`).  Validation runs first; a failure raises
(`Except.error`) before the lock is acquired and before any write — the
event list records what happened.  On success the previously active rows
of the client are flipped inactive, one new active row is appended, and
`(entry_id, old_values, normalized_values)` is returned with the log.
`old_values.test_date` is always `""` because the stored schema lacks a
`test_date` column (`previous_active.get("test_date", "")`). -/
def persist_user_edit (today : PDate) (log : List EditEntry)
    (client_id changed_by : String) (new_values : EditValues)
    (entry_id timestamp : String) :
    Except String (List EditEntry × String × EditValues × EditValues) × List StoreEvent :=
  match validate_edit_payload today new_values.review_date new_values.layer_date
      new_values.test_date new_values.comment with
  | (false, err, _) => (.error (err.getD "Invalid edit payload."), [])
  | (true, _, normalized) =>
    let activeRows := log.filter fun e => e.client_id == client_id && e.is_active
    let prev := latestActive activeRows
    let old_values : EditValues :=
      match prev with
      | none => ⟨"", "", "", ""⟩
      | some p => ⟨p.review_date, p.layer_date, "", p.comment⟩
    let previous_entry_id :=
      match prev with
      | none => ""
      | some p => p.entry_id
    let deactivated := log.map (deactivateFor client_id)
    let newEntry : EditEntry :=
      ⟨entry_id, client_id, normalized.review_date, normalized.layer_date,
       normalized.comment, changed_by, timestamp, true, previous_entry_id⟩
    (.ok (deactivated ++ [newEntry], entry_id, old_values, normalized),
     [.lockAcquired, .editLogWrite])

/-- One audit-trail row (`AUDIT_COLUMNS`); the old/new snapshots are kept
structured rather than JSON-encoded. -/
structure AuditEntry where
  audit_id : String
  entry_id : String
  client_id : String
  changed_by : String
  change_timestamp : String
  old_values : EditValues
  new_values : EditValues
deriving DecidableEq, Repr

/-- `audit_service.append_audit_entry`: lock, pure append, atomic write. -/
def append_audit_entry (auditLog : List AuditEntry)
    (entry_id client_id changed_by : String) (old_values new_values : EditValues)
    (audit_id timestamp : String) : List AuditEntry × List StoreEvent :=
  (auditLog ++ [⟨audit_id, entry_id, client_id, changed_by, timestamp, old_values, new_values⟩],
   [.lockAcquired, .auditLogWrite])

/-- The caller-side flow of `app.process_inline_edits` for one request:
persist the edit, then append the audit entry only if persisting
succeeded.  Returns the two logs, the event trace and the error, if any. -/
def process_edit (today : PDate) (editLog : List EditEntry) (auditLog : List AuditEntry)
    (client_id changed_by : String) (new_values : EditValues)
    (entry_id timestamp audit_id audit_timestamp : String) :
    List EditEntry × List AuditEntry × List StoreEvent × Option String :=
  match persist_user_edit today editLog client_id changed_by new_values entry_id timestamp with
  | (.error e, evs) => (editLog, auditLog, evs, some e)
  | (.ok (log', eid, old_values, new_vals), evs) =>
    let (audit', aevs) :=
      append_audit_entry auditLog eid client_id changed_by old_values new_vals
        audit_id audit_timestamp
    (log', audit', evs ++ aevs, none)

/-- One accepted-or-not edit request, with its injected fresh id and
timestamp. -/
structure EditCall where
  client_id : String
  changed_by : String
  vals : EditValues
  entry_id : String
  timestamp : String
deriving DecidableEq, Repr

/-- Run a sequence of `persist_user_edit` calls; a rejected call leaves the
log unchanged. -/
def runEdits (today : PDate) (log : List EditEntry) : List EditCall → List EditEntry
  | [] => log
  | c :: cs =>
    match (persist_user_edit today log c.client_id c.changed_by c.vals c.entry_id c.timestamp).1 with
    | .ok (log', _, _, _) => runEdits today log' cs
    | .error _ => runEdits today log cs

/-- The active rows a reader sees for one client. -/
def activeFor (log : List EditEntry) (cid : String) : List EditEntry :=
  log.filter fun e => e.client_id == cid && e.is_active

/-- The last call of a sequence addressed to a given client. -/
def lastCallFor (calls : List EditCall) (cid : String) : Option EditCall :=
  (calls.filter (fun c => c.client_id == cid)).getLast?

/-- Whether a payload passes `validate_edit_payload` (statement helper). -/
def payloadAccepted (today : PDate) (v : EditValues) : Bool :=
  (validate_edit_payload today v.review_date v.layer_date v.test_date v.comment).1

/-- The normalized values a payload validates to (statement helper). -/
def normalizedOf (today : PDate) (v : EditValues) : EditValues :=
  (validate_edit_payload today v.review_date v.layer_date v.test_date v.comment).2.2

/-- The edit-log row an accepted call appends, given the
`previous_entry_id` back-reference it records (statement helper). -/
def entryOfCall (today : PDate) (c : EditCall) (p : String) : EditEntry :=
  ⟨c.entry_id, c.client_id, (normalizedOf today c.vals).review_date,
   (normalizedOf today c.vals).layer_date, (normalizedOf today c.vals).comment,
   c.changed_by, c.timestamp, true, p⟩

/-! ## The edit log at column level (for the dropped `test_date` column)

Here a dataframe is a column list plus rows of `(column, value)` pairs, so
that pandas' column projection — and its `KeyError` on a missing column —
can be stated.  `persist_user_edit` builds its new row with a `test_date`
key, but writes `updated_df[USER_INPUT_COLUMNS]`, and `USER_INPUT_COLUMNS`
has no `test_date`; `get_active_user_inputs` then selects `test_date` from
the stored columns. -/

/-- A dataframe row: association list from column name to string value. -/
abbrev DFRow := List (String × String)

/-- Value of a column in a row, empty string when absent (`Series.get`
with default `""` / NaN filled to `""`). -/
def getColD (r : DFRow) (c : String) : String :=
  match r.find? (fun p => p.1 == c) with
  | some p => p.2
  | none => ""

/-- Whether a row has a given column. -/
def hasCol (r : DFRow) (c : String) : Bool :=
  (r.find? (fun p => p.1 == c)).isSome

/-- A dataframe: ordered column list and rows. -/
structure DF where
  cols : List String
  rows : List DFRow
deriving DecidableEq, Repr

/-- `config.USER_INPUT_COLUMNS` — the stored edit-log schema.  It contains
no `test_date` column. -/
def USER_INPUT_COLUMNS : List String :=
  ["entry_id", "client_id", "review_date", "layer_date", "comment",
   "changed_by", "change_timestamp", "is_active", "previous_entry_id"]

/-- Reindex a dataframe onto a column list, back-filling absent columns
with the empty string (missing-column back-fill of `read_csv_or_empty`
followed by projection). -/
def reindexDF (df : DF) (cs : List String) : DF :=
  ⟨cs, df.rows.map fun r => cs.map fun c => (c, getColD r c)⟩

/-- pandas `df[cs]`: projection onto columns, raising `KeyError` (`none`)
when a requested column is absent. -/
def selectCols (df : DF) (cs : List String) : Option DF :=
  if cs.all (fun c => df.cols.contains c) then some (reindexDF df cs) else none

/-- `helpers.read_csv_or_empty`: empty frame with the given columns when
the file is absent, else read, back-fill missing columns with `""` and
keep exactly those columns. -/
def read_csv_or_empty (file : Option DF) (cols : List String) : DF :=
  match file with
  | none => ⟨cols, []⟩
  | some df => reindexDF df cols

/-- The truthy forms of a stored `is_active` cell:
`str(x).lower() in ["true", "1", "yes"]`. -/
def isTruthy (s : String) : Bool :=
  let l := ⟨s.data.map Char.toLower⟩
  l == "true" || l == "1" || l == "yes"

/-- Rewrite a row's `is_active` cell to the canonical `"True"` / `"False"`
its boolean becomes when the frame is next serialized. -/
def canonActive (r : DFRow) : DFRow :=
  r.map fun p => if p.1 == "is_active" then (p.1, if isTruthy p.2 then "True" else "False") else p

/-- `data_loader.load_user_inputs`: read with the fixed schema and
normalize `is_active` to a boolean (kept here as its canonical string). -/
def load_user_inputs (file : Option DF) : DF :=
  let df := read_csv_or_empty file USER_INPUT_COLUMNS
  ⟨df.cols, df.rows.map canonActive⟩

/-- Insertion into rows sorted by `(client_id, change_timestamp)`. -/
def insertByClientTs (r : DFRow) : List DFRow → List DFRow
  | [] => [r]
  | x :: xs =>
    if getColD r "client_id" < getColD x "client_id" ||
       (getColD r "client_id" == getColD x "client_id" &&
        getColD r "change_timestamp" < getColD x "change_timestamp") then
      r :: x :: xs
    else x :: insertByClientTs r xs

/-- Stable ascending sort by `(client_id, change_timestamp)` — rows with
equal keys keep their file order, like pandas' stable string sort keys. -/
def sortByClientTs : List DFRow → List DFRow
  | [] => []
  | x :: xs => insertByClientTs x (sortByClientTs xs)

/-- `groupby("client_id").tail(1)`: keep, in order, each row not followed
by a later row of the same client. -/
def tailOnePerClient : List DFRow → List DFRow
  | [] => []
  | r :: rest =>
    if rest.any (fun s => getColD s "client_id" == getColD r "client_id") then
      tailOnePerClient rest
    else r :: tailOnePerClient rest

/-- `data_loader.get_active_user_inputs`: filter to active rows, keep the
latest per client, and project onto the six read-back columns — a
projection that raises `KeyError` (`none`) if `test_date` is not among the
stored columns. -/
def get_active_user_inputs (df : DF) : Option DF :=
  let outCols := ["client_id", "entry_id", "review_date", "layer_date", "test_date", "comment"]
  if df.rows.isEmpty then some ⟨outCols, []⟩
  else
    let active := df.rows.filter fun r => isTruthy (getColD r "is_active")
    if active.isEmpty then some ⟨outCols, []⟩
    else selectCols ⟨df.cols, tailOnePerClient (sortByClientTs active)⟩ outCols

/-- `data_loader.persist_user_edit` at column level: validate, read the
file through the fixed 9-column schema, flip the client's active rows,
build the 10-key new row (including `test_date`), concatenate, and write
back `updated_df[USER_INPUT_COLUMNS]` — which drops `test_date`.  Returns
the written frame with `(entry_id, old_values, normalized)`. -/
def persist_user_edit_df (today : PDate) (file : Option DF)
    (client_id changed_by : String) (new_values : EditValues)
    (entry_id timestamp : String) :
    Except String (DF × String × EditValues × EditValues) :=
  match validate_edit_payload today new_values.review_date new_values.layer_date
      new_values.test_date new_values.comment with
  | (false, err, _) => .error (err.getD "Invalid edit payload.")
  | (true, _, normalized) =>
    let df := load_user_inputs file
    let activeRows := df.rows.filter fun r =>
      getColD r "client_id" == client_id && isTruthy (getColD r "is_active")
    let prev := (sortByClientTs activeRows).getLast?
    let old_values : EditValues :=
      match prev with
      | none => ⟨"", "", "", ""⟩
      | some p => ⟨getColD p "review_date", getColD p "layer_date",
                   getColD p "test_date", getColD p "comment"⟩
    let previous_entry_id :=
      match prev with
      | none => ""
      | some p => getColD p "entry_id"
    let deactivated := df.rows.map fun r =>
      if getColD r "client_id" == client_id && isTruthy (getColD r "is_active") then
        r.map fun p => if p.1 == "is_active" then (p.1, "False") else p
      else r
    let new_row : DFRow :=
      [("entry_id", entry_id), ("client_id", client_id),
       ("review_date", normalized.review_date), ("layer_date", normalized.layer_date),
       ("test_date", normalized.test_date), ("comment", normalized.comment),
       ("changed_by", changed_by), ("change_timestamp", timestamp),
       ("is_active", "True"), ("previous_entry_id", previous_entry_id)]
    let updated : DF := ⟨df.cols ++ ["test_date"], deactivated ++ [new_row]⟩
    match selectCols updated USER_INPUT_COLUMNS with
    | some stored => .ok (stored, entry_id, old_values, normalized)
    | none => .error "KeyError"

/-! ## The atomic file writer (`helpers.atomic_write_dataframe`) -/

/-- A flat file system: contents by path (`none` = file absent). -/
def FileSys := String → Option String

/-- Point update of a file system. -/
def updateFS (fs : FileSys) (p : String) (v : Option String) : FileSys :=
  fun q => if q = p then v else fs q

/-- Failure injection points for the atomic writer: `ok` runs to
completion; `failCreatingTemp` models the temporary file being impossible
to create or write; `failBeforeRename` models a crash after the temporary
file is complete but before `os.replace` runs. -/
inductive WriteOutcome where
  | ok
  | failCreatingTemp
  | failBeforeRename
deriving DecidableEq, Repr

/-- `atomic_write_dataframe`: serialize to a fresh temporary path in the
target's directory, then commit with the single atomic rename
`os.replace(temp_name, target_path)` (target receives the temporary's
content, the temporary disappears).  `content` stands for the serialized
record set, `tmp` for the fresh `NamedTemporaryFile` path. -/
def atomic_write_dataframe (fs : FileSys) (content : String)
    (target tmp : String) : WriteOutcome → FileSys
  | .failCreatingTemp => fs
  | .failBeforeRename => updateFS fs tmp (some content)
  | .ok =>
    let fs1 := updateFS fs tmp (some content)
    updateFS (updateFS fs1 target (fs1 tmp)) tmp none

/-! ## Lemmas: digits, splitting, trimming, ISO round-trip -/

theorem digitChar_isDigit {k : Nat} (h : k < 10) : (digitChar k).isDigit = true := by
  interval_cases k <;> decide

theorem digitChar_toNat {k : Nat} (h : k < 10) : (digitChar k).toNat = 48 + k := by
  interval_cases k <;> decide

theorem digitChar_ne_dash {k : Nat} (h : k < 10) : digitChar k ≠ '-' := by
  interval_cases k <;> decide

theorem digitChar_not_ws {k : Nat} (h : k < 10) : (digitChar k).isWhitespace = false := by
  interval_cases k <;> decide

theorem digitChar_mod_isDigit (n : Nat) : (digitChar (n % 10)).isDigit = true :=
  digitChar_isDigit (Nat.mod_lt _ (by norm_num))

theorem digitChar_mod_toNat (n : Nat) : (digitChar (n % 10)).toNat = 48 + n % 10 :=
  digitChar_toNat (Nat.mod_lt _ (by norm_num))

theorem digitChar_mod_ne_dash (n : Nat) : digitChar (n % 10) ≠ '-' :=
  digitChar_ne_dash (Nat.mod_lt _ (by norm_num))

theorem digitChar_mod_not_ws (n : Nat) : (digitChar (n % 10)).isWhitespace = false :=
  digitChar_not_ws (Nat.mod_lt _ (by norm_num))

theorem digitsVal_pad2 {n : Nat} (h : n < 100) : digitsVal (pad2chars n) = n := by
  unfold digitsVal pad2chars
  simp only [List.foldl_cons, List.foldl_nil, digitChar_mod_toNat]
  omega

theorem digitsVal_pad4 {n : Nat} (h : n < 10000) : digitsVal (pad4chars n) = n := by
  unfold digitsVal pad4chars
  simp only [List.foldl_cons, List.foldl_nil, digitChar_mod_toNat]
  omega

theorem pad2_length (n : Nat) : (pad2chars n).length = 2 := rfl

theorem pad4_length (n : Nat) : (pad4chars n).length = 4 := rfl

theorem pad2_all_digits (n : Nat) : (pad2chars n).all Char.isDigit = true := by
  simp [pad2chars, digitChar_mod_isDigit]

theorem pad4_all_digits (n : Nat) : (pad4chars n).all Char.isDigit = true := by
  simp [pad4chars, digitChar_mod_isDigit]

theorem dash_not_mem_pad2 (n : Nat) : '-' ∉ pad2chars n := by
  intro hm
  simp only [pad2chars, List.mem_cons, List.not_mem_nil, or_false] at hm
  rcases hm with h | h <;> exact digitChar_mod_ne_dash _ h.symm

theorem dash_not_mem_pad4 (n : Nat) : '-' ∉ pad4chars n := by
  intro hm
  simp only [pad4chars, List.mem_cons, List.not_mem_nil, or_false] at hm
  rcases hm with h | h | h | h <;> exact digitChar_mod_ne_dash _ h.symm

theorem pad2_not_ws (n : Nat) : ∀ c ∈ pad2chars n, c.isWhitespace = false := by
  intro c hc
  simp only [pad2chars, List.mem_cons, List.not_mem_nil, or_false] at hc
  rcases hc with h | h <;> exact h ▸ digitChar_mod_not_ws _

theorem pad4_not_ws (n : Nat) : ∀ c ∈ pad4chars n, c.isWhitespace = false := by
  intro c hc
  simp only [pad4chars, List.mem_cons, List.not_mem_nil, or_false] at hc
  rcases hc with h | h | h | h <;> exact h ▸ digitChar_mod_not_ws _

theorem splitOnChar_cons_ne {sep c : Char} {cs : List Char} (hc : ¬(c = sep)) :
    splitOnChar sep (c :: cs) =
      (match splitOnChar sep cs with
       | [] => [[c]]
       | h :: t => (c :: h) :: t) := by
  simp [splitOnChar, hc]

theorem splitOnChar_no_sep {sep : Char} {cs : List Char} (h : sep ∉ cs) :
    splitOnChar sep cs = [cs] := by
  induction cs with
  | nil => rfl
  | cons c rest ih =>
    have hc : ¬(c = sep) := fun he => h (he ▸ List.mem_cons_self c rest)
    have hr : sep ∉ rest := fun hm => h (List.mem_cons_of_mem _ hm)
    rw [splitOnChar_cons_ne hc, ih hr]

theorem splitOnChar_append {sep : Char} {xs ys : List Char} (h : sep ∉ xs) :
    splitOnChar sep (xs ++ sep :: ys) = xs :: splitOnChar sep ys := by
  induction xs with
  | nil => simp [splitOnChar]
  | cons c rest ih =>
    have hc : ¬(c = sep) := fun he => h (he ▸ List.mem_cons_self c rest)
    have hr : sep ∉ rest := fun hm => h (List.mem_cons_of_mem _ hm)
    rw [List.cons_append, splitOnChar_cons_ne hc, ih hr]

theorem dropWhile_ws_eq_self {cs : List Char}
    (h : ∀ c ∈ cs, c.isWhitespace = false) :
    cs.dropWhile Char.isWhitespace = cs := by
  cases cs with
  | nil => rfl
  | cons a l => simp [List.dropWhile_cons, h a (List.mem_cons_self a l)]

theorem trimChars_eq_self {cs : List Char}
    (h : ∀ c ∈ cs, c.isWhitespace = false) : trimChars cs = cs := by
  unfold trimChars
  rw [dropWhile_ws_eq_self h,
    dropWhile_ws_eq_self (fun c hc => h c (List.mem_reverse.mp hc)),
    List.reverse_reverse]

theorem isoChars_not_ws (d : PDate) :
    ∀ c ∈ pad4chars d.year ++ ('-' :: (pad2chars d.month ++ ('-' :: pad2chars d.day))),
      c.isWhitespace = false := by
  intro c hc
  rcases List.mem_append.mp hc with h | h
  · exact pad4_not_ws _ c h
  · rcases List.mem_cons.mp h with h | h
    · subst h; decide
    · rcases List.mem_append.mp h with h | h
      · exact pad2_not_ws _ c h
      · rcases List.mem_cons.mp h with h | h
        · subst h; decide
        · exact pad2_not_ws _ c h

theorem isoformat_data (d : PDate) :
    (d.isoformat).data =
      pad4chars d.year ++ ('-' :: (pad2chars d.month ++ ('-' :: pad2chars d.day))) := rfl

theorem normalize_isoformat (d : PDate) : normalize_text d.isoformat = d.isoformat := by
  unfold normalize_text
  rw [isoformat_data, trimChars_eq_self (isoChars_not_ws d)]
  rfl

theorem parseFixedDigits_pad4 {y : Nat} (h : y < 10000) :
    parseFixedDigits 4 (pad4chars y) = some y := by
  simp [parseFixedDigits, pad4_length, pad4_all_digits, digitsVal_pad4 h]

theorem parse1or2_pad2 {n : Nat} (h : n < 100) :
    parse1or2Digits (pad2chars n) = some n := by
  simp [parse1or2Digits, pad2_length, pad2_all_digits, digitsVal_pad2 h]

theorem parseMonthTok_pad2 {m : Nat} (h1 : 1 ≤ m) (h2 : m ≤ 12) :
    parseMonthTok (pad2chars m) = some m := by
  have : parse1or2Digits (pad2chars m) = some m := parse1or2_pad2 (by omega)
  simp [parseMonthTok, this, h1, h2]

theorem parseDayTok_pad2 {n : Nat} (h1 : 1 ≤ n) (h2 : n ≤ 31) :
    parseDayTok (pad2chars n) = some n := by
  have : parse1or2Digits (pad2chars n) = some n := parse1or2_pad2 (by omega)
  simp [parseDayTok, this, h1, h2]

theorem PDate.valid_iff {d : PDate} :
    d.valid = true ↔
      1 ≤ d.year ∧ d.year ≤ 9999 ∧ 1 ≤ d.month ∧ d.month ≤ 12 ∧
        1 ≤ d.day ∧ d.day ≤ daysInMonth d.year d.month := by
  simp [PDate.valid, and_assoc]

theorem daysInMonth_le_31 (y m : Nat) : daysInMonth y m ≤ 31 := by
  unfold daysInMonth
  split
  · split <;> omega
  · split <;> omega

theorem daysInMonth_ge_28 (y m : Nat) : 28 ≤ daysInMonth y m := by
  unfold daysInMonth
  split
  · split <;> omega
  · split <;> omega

theorem mkPyDate_eq_some_of_valid {d : PDate} (h : d.valid = true) :
    mkPyDate d.year d.month d.day = some d := by
  unfold PDate.valid at h
  unfold mkPyDate
  rw [if_pos h]

theorem tryFormatYMD_isoformat {d : PDate} (h : d.valid = true) :
    tryFormatYMD '-' (d.isoformat).data = some d := by
  have hv := PDate.valid_iff.mp h
  rw [isoformat_data]
  unfold tryFormatYMD
  rw [splitOnChar_append (dash_not_mem_pad4 d.year),
    splitOnChar_append (dash_not_mem_pad2 d.month),
    splitOnChar_no_sep (dash_not_mem_pad2 d.day)]
  simp only [parseFixedDigits_pad4 (by omega : d.year < 10000),
    parseMonthTok_pad2 hv.2.2.1 hv.2.2.2.1,
    parseDayTok_pad2 hv.2.2.2.2.1 (le_trans hv.2.2.2.2.2 (daysInMonth_le_31 _ _)),
    Option.bind_some]
  exact mkPyDate_eq_some_of_valid h

theorem optOr_some {α : Type} {a : α} {y : Option α} : (some a <|> y) = some a := rfl

theorem optOr_none {α : Type} {y : Option α} : (none <|> y) = y := rfl

theorem parse_date_isoformat {Y : Nat} {d : PDate} (h : d.valid = true) :
    parse_date Y d.isoformat = some d := by
  have h1 : tryFormatYMD '-' ((normalize_text d.isoformat).data) = some d := by
    rw [normalize_isoformat]; exact tryFormatYMD_isoformat h
  have h2 : ((normalize_text d.isoformat).data).isEmpty = false := by
    rw [normalize_isoformat, isoformat_data]; simp [pad4chars]
  unfold parse_date
  simp only [h2, Bool.false_eq_true, if_false, h1, optOr_some]

/-! ## Lemmas: every parsed date is a valid Python date -/

theorem optOr_eq_some {α : Type} {x y : Option α} {d : α}
    (h : (x <|> y) = some d) : x = some d ∨ y = some d := by
  cases x
  · right; rw [optOr_none] at h; exact h
  · left; rw [optOr_some] at h; exact h

theorem mkPyDate_valid {y m dd : Nat} {p : PDate}
    (h : mkPyDate y m dd = some p) : p.valid = true := by
  unfold mkPyDate at h
  split at h
  · rename_i hc
    cases h
    exact hc
  · simp at h

theorem tryFormatYMD_valid {sep : Char} {cs : List Char} {d : PDate}
    (h : tryFormatYMD sep cs = some d) : d.valid = true := by
  unfold tryFormatYMD at h
  split at h
  · simp only [bind, Option.bind_eq_some] at h
    obtain ⟨y, _, m, _, dd, _, hmk⟩ := h
    exact mkPyDate_valid hmk
  · simp at h

theorem tryFormatMDY_valid {sep : Char} {cs : List Char} {d : PDate}
    (h : tryFormatMDY sep cs = some d) : d.valid = true := by
  unfold tryFormatMDY at h
  split at h
  · simp only [bind, Option.bind_eq_some] at h
    obtain ⟨y, _, m, _, dd, _, hmk⟩ := h
    exact mkPyDate_valid hmk
  · simp at h

theorem tryYearMonth_valid {cs : List Char} {d : PDate}
    (h : tryYearMonth cs = some d) : d.valid = true := by
  unfold tryYearMonth at h
  split at h
  · simp only [bind, Option.bind_eq_some] at h
    obtain ⟨y, _, m, _, hif⟩ := h
    split at hif
    · exact mkPyDate_valid hif
    · simp at hif
  · simp at h

theorem tryYearOnly_valid {cs : List Char} {d : PDate}
    (h : tryYearOnly cs = some d) : d.valid = true := by
  unfold tryYearOnly at h
  simp only [Option.bind_eq_some] at h
  obtain ⟨y, _, hmk⟩ := h
  exact mkPyDate_valid hmk

theorem tryMonthOnly_valid {Y : Nat} {cs : List Char} {d : PDate}
    (h : tryMonthOnly Y cs = some d) : d.valid = true := by
  unfold tryMonthOnly at h
  simp only [Option.bind_eq_some] at h
  obtain ⟨m, _, hif⟩ := h
  split at hif
  · exact mkPyDate_valid hif
  · simp at hif

theorem fromisoformat_model_valid {cs : List Char} {d : PDate}
    (h : fromisoformat_model cs = some d) : d.valid = true := by
  unfold fromisoformat_model at h
  split at h
  · simp at h
  · split at h
    · split at h
      · simp only [bind, Option.bind_eq_some] at h
        obtain ⟨y, _, m, _, dd, _, hmk⟩ := h
        exact mkPyDate_valid hmk
      · simp at h
    · simp at h

theorem parse_date_valid {Y : Nat} {s : String} {d : PDate}
    (h : parse_date Y s = some d) : d.valid = true := by
  simp only [parse_date] at h
  split at h
  · simp at h
  · rcases optOr_eq_some h with h | h
    · exact tryFormatYMD_valid h
    rcases optOr_eq_some h with h | h
    · exact tryFormatYMD_valid h
    rcases optOr_eq_some h with h | h
    · exact tryFormatMDY_valid h
    rcases optOr_eq_some h with h | h
    · exact tryFormatMDY_valid h
    rcases optOr_eq_some h with h | h
    · exact tryYearMonth_valid h
    rcases optOr_eq_some h with h | h
    · exact tryYearOnly_valid h
    rcases optOr_eq_some h with h | h
    · exact tryMonthOnly_valid h
    · exact fromisoformat_model_valid h

theorem parse_date_empty_of_blank {Y : Nat} {s : String}
    (h : normalize_text s = "") : parse_date Y s = none := by
  simp only [parse_date]
  have hd : (normalize_text s).data = [] := by rw [h]
  simp [hd]

theorem normalize_ne_empty_of_parse {Y : Nat} {s : String} {d : PDate}
    (h : parse_date Y s = some d) : normalize_text s ≠ "" := by
  intro hb
  rw [parse_date_empty_of_blank hb] at h
  exact Option.noConfusion h

/-! ## Lemmas: the lexicographic date order -/

theorem PDate.ble_iff {a b : PDate} :
    a.ble b = true ↔
      (a.year < b.year ∨
        (a.year = b.year ∧
          (a.month < b.month ∨ (a.month = b.month ∧ a.day ≤ b.day)))) := by
  simp [PDate.ble]

theorem PDate.blt_iff {a b : PDate} :
    a.blt b = true ↔
      (a.year < b.year ∨
        (a.year = b.year ∧
          (a.month < b.month ∨ (a.month = b.month ∧ a.day < b.day)))) := by
  simp [PDate.blt]

theorem PDate.ble_refl (a : PDate) : a.ble a = true := by
  simp [PDate.ble_iff]

theorem PDate.ble_trans {a b c : PDate}
    (h1 : a.ble b = true) (h2 : b.ble c = true) : a.ble c = true := by
  rw [PDate.ble_iff] at *
  omega

theorem PDate.ble_total (a b : PDate) : a.ble b = true ∨ b.ble a = true := by
  rw [PDate.ble_iff, PDate.ble_iff]
  omega

theorem PDate.ble_of_not_ble {a b : PDate} (h : a.ble b = false) : b.ble a = true := by
  rcases PDate.ble_total a b with h1 | h1
  · rw [h1] at h; exact Bool.noConfusion h
  · exact h1

theorem PDate.ble_false_iff {a b : PDate} : a.ble b = false ↔ b.blt a = true := by
  rw [PDate.blt_iff]
  constructor
  · intro h
    have := Bool.eq_false_iff.mp h
    rw [Ne, PDate.ble_iff] at this
    omega
  · intro h
    apply Bool.eq_false_iff.mpr
    rw [Ne, PDate.ble_iff]
    omega

/-! ## Lemmas: the overdue cutoff and its boundary -/

theorem subMonths12_valid {t : PDate} (h : t.valid = true) (h2 : 2 ≤ t.year) :
    (subMonths12 t).valid = true := by
  have hv := PDate.valid_iff.mp h
  have h28 := daysInMonth_ge_28 (t.year - 1) t.month
  have hmin2 : min t.day (daysInMonth (t.year - 1) t.month) ≤
      daysInMonth (t.year - 1) t.month := Nat.min_le_right _ _
  have hmin1 : 1 ≤ min t.day (daysInMonth (t.year - 1) t.month) :=
    Nat.le_min.mpr ⟨hv.2.2.2.2.1, by omega⟩
  rw [PDate.valid_iff]
  unfold subMonths12
  dsimp only
  exact ⟨by omega, by omega, hv.2.2.1, hv.2.2.2.1, hmin1, hmin2⟩

theorem addDay1_valid {c : PDate} (h : c.valid = true) (hy : c.year ≤ 9998) :
    (addDay1 c).valid = true := by
  have hv := PDate.valid_iff.mp h
  have h28a := daysInMonth_ge_28 c.year (c.month + 1)
  have h28b := daysInMonth_ge_28 (c.year + 1) 1
  rw [PDate.valid_iff]
  unfold addDay1
  split
  · dsimp only
    refine ⟨by omega, by omega, by omega, by omega, by omega, by omega⟩
  · split
    · dsimp only
      refine ⟨by omega, by omega, by omega, by omega, by omega, by omega⟩
    · dsimp only
      refine ⟨by omega, by omega, by omega, by omega, by omega, by omega⟩

theorem addDay1_not_ble {c : PDate} : (addDay1 c).ble c = false := by
  rw [Bool.eq_false_iff, Ne, PDate.ble_iff]
  unfold addDay1
  split
  · dsimp only; omega
  · split
    · dsimp only; omega
    · dsimp only; omega

/-! ## Lemmas: the field validator -/

theorem strictIsoMatch_isoformat (d : PDate) :
    strictIsoMatch (d.isoformat).data = true := by
  rw [isoformat_data]
  unfold strictIsoMatch
  rw [splitOnChar_append (dash_not_mem_pad4 _),
    splitOnChar_append (dash_not_mem_pad2 _),
    splitOnChar_no_sep (dash_not_mem_pad2 _)]
  simp [pad4_length, pad2_length, pad4_all_digits, pad2_all_digits]

theorem validate_optional_date_cases (today : PDate) (v f : String) (strict : Bool) :
    (normalize_text v = "" ∧ validate_optional_date today v f strict = (true, "", "")) ∨
    (∃ d, parse_date today.year v = some d ∧ d.blt MIN_ALLOWED_DATE = false ∧
      today.blt d = false ∧
      validate_optional_date today v f strict = (true, "", d.isoformat)) ∨
    ((∃ rest, validate_optional_date today v f strict = (false, f ++ rest, "")) ∧
      ((strict = true ∧ strictIsoMatch (normalize_text v).data = false) ∨
        parse_date today.year v = none ∨
        (∃ d, parse_date today.year v = some d ∧
          (d.blt MIN_ALLOWED_DATE = true ∨ today.blt d = true)))) := by
  unfold validate_optional_date
  split
  · rename_i hb
    exact Or.inl ⟨hb, rfl⟩
  · split
    · rename_i hreg
      rw [Bool.and_eq_true, Bool.not_eq_true'] at hreg
      exact Or.inr (Or.inr ⟨⟨" must be in YYYY-MM-DD format.", rfl⟩, Or.inl hreg⟩)
    · split
      · rename_i hp
        split
        · exact Or.inr (Or.inr
            ⟨⟨" must be a valid date in YYYY-MM-DD format.", rfl⟩, Or.inr (Or.inl hp)⟩)
        · exact Or.inr (Or.inr
            ⟨⟨" must be a valid date (YYYY-MM-DD, YYYY-MM, or YYYY).", rfl⟩,
             Or.inr (Or.inl hp)⟩)
      · rename_i d hp
        split
        · rename_i hb1
          exact Or.inr (Or.inr
            ⟨⟨" cannot be before " ++ MIN_ALLOWED_DATE.isoformat ++ ".",
              by simp [String.append_assoc]⟩,
             Or.inr (Or.inr ⟨d, hp, Or.inl hb1⟩)⟩)
        · split
          · rename_i hb2
            exact Or.inr (Or.inr
              ⟨⟨" cannot be in the future.", rfl⟩, Or.inr (Or.inr ⟨d, hp, Or.inr hb2⟩)⟩)
          · rename_i hb1 hb2
            exact Or.inr (Or.inl ⟨d, hp, Bool.eq_false_iff.mpr hb1,
              Bool.eq_false_iff.mpr hb2, rfl⟩)

theorem validate_optional_date_error_form {today : PDate} {v f : String} {strict : Bool}
    (h : (validate_optional_date today v f strict).1 = false) :
    ∃ rest, (validate_optional_date today v f strict).2.1 = f ++ rest := by
  rcases validate_optional_date_cases today v f strict with ⟨_, he⟩ | ⟨d, _, _, _, he⟩ |
    ⟨⟨rest, he⟩, _⟩
  · rw [he] at h; exact absurd h (by simp)
  · rw [he] at h; exact absurd h (by simp)
  · rw [he]; exact ⟨rest, rfl⟩

theorem validate_optional_date_accepted {today : PDate} {v f : String} {strict : Bool}
    (hne : ¬(normalize_text v = ""))
    (hacc : (validate_optional_date today v f strict).1 = true) :
    ∃ d, parse_date today.year v = some d ∧ d.blt MIN_ALLOWED_DATE = false ∧
      today.blt d = false ∧
      validate_optional_date today v f strict = (true, "", d.isoformat) := by
  rcases validate_optional_date_cases today v f strict with ⟨hb, _⟩ | hd | ⟨⟨rest, he⟩, _⟩
  · exact absurd hb hne
  · exact hd
  · rw [he] at hacc; exact absurd hacc (by simp)

theorem validate_optional_date_out_of_range {today : PDate} {v f : String}
    {strict : Bool} {d : PDate}
    (hp : parse_date today.year v = some d)
    (hr : d.blt MIN_ALLOWED_DATE = true ∨ today.blt d = true) :
    (validate_optional_date today v f strict).1 = false := by
  rcases validate_optional_date_cases today v f strict with ⟨hb, _⟩ |
    ⟨d', hp', h1, h2, _⟩ | ⟨⟨rest, he⟩, _⟩
  · exact absurd hb (normalize_ne_empty_of_parse hp)
  · rw [hp'] at hp
    cases hp
    rcases hr with hr | hr
    · rw [h1] at hr; exact Bool.noConfusion hr
    · rw [h2] at hr; exact Bool.noConfusion hr
  · rw [he]

theorem validate_edit_payload_field_error {today : PDate} {rv lv tv cv : String}
    (h : (∃ d, parse_date today.year rv = some d ∧
            (d.blt MIN_ALLOWED_DATE = true ∨ today.blt d = true)) ∨
         (∃ d, parse_date today.year lv = some d ∧
            (d.blt MIN_ALLOWED_DATE = true ∨ today.blt d = true)) ∨
         (∃ d, parse_date today.year tv = some d ∧
            (d.blt MIN_ALLOWED_DATE = true ∨ today.blt d = true))) :
    ∃ msg, validate_edit_payload today rv lv tv cv = (false, some msg, ⟨"", "", "", ""⟩) ∧
      ∃ f rest, (f = "review_date" ∨ f = "layer_date" ∨ f = "test_date") ∧
        msg = f ++ rest := by
  unfold validate_edit_payload
  rcases h1 : validate_optional_date today rv "review_date" false with ⟨b1, e1, n1⟩
  cases b1
  · obtain ⟨rest, hrest⟩ := validate_optional_date_error_form
      (show (validate_optional_date today rv "review_date" false).1 = false by rw [h1])
    rw [h1] at hrest
    exact ⟨e1, rfl, "review_date", rest, Or.inl rfl, hrest⟩
  · rcases h2 : validate_optional_date today lv "layer_date" false with ⟨b2, e2, n2⟩
    cases b2
    · obtain ⟨rest, hrest⟩ := validate_optional_date_error_form
        (show (validate_optional_date today lv "layer_date" false).1 = false by rw [h2])
      rw [h2] at hrest
      exact ⟨e2, rfl, "layer_date", rest, Or.inr (Or.inl rfl), hrest⟩
    · rcases h3 : validate_optional_date today tv "test_date" true with ⟨b3, e3, n3⟩
      cases b3
      · obtain ⟨rest, hrest⟩ := validate_optional_date_error_form
          (show (validate_optional_date today tv "test_date" true).1 = false by rw [h3])
        rw [h3] at hrest
        exact ⟨e3, rfl, "test_date", rest, Or.inr (Or.inr rfl), hrest⟩
      · exfalso
        rcases h with ⟨d, hp, hr⟩ | ⟨d, hp, hr⟩ | ⟨d, hp, hr⟩
        · have := @validate_optional_date_out_of_range today rv "review_date"
            false d hp hr
          rw [h1] at this; exact Bool.noConfusion this
        · have := @validate_optional_date_out_of_range today lv "layer_date"
            false d hp hr
          rw [h2] at this; exact Bool.noConfusion this
        · have := @validate_optional_date_out_of_range today tv "test_date"
            true d hp hr
          rw [h3] at this; exact Bool.noConfusion this

/-! ## Lemmas: deduplication -/

theorem argmaxFirst_foldl_spec (f : CatalogRow → Nat) (rows : List CatalogRow) :
    ∀ (acc : Option CatalogRow) (w : CatalogRow),
      rows.foldl (argmaxFirstStep f) acc = some w →
      (w ∈ rows ∨ acc = some w) ∧
      (∀ r ∈ rows, f r ≤ f w) ∧
      (∀ b, acc = some b → f b ≤ f w) := by
  induction rows with
  | nil =>
    intro acc w h
    simp only [List.foldl_nil] at h
    refine ⟨Or.inr h, by simp, fun b hb => ?_⟩
    rw [hb] at h
    cases h
    exact le_refl _
  | cons x rest ih =>
    intro acc w h
    simp only [List.foldl_cons] at h
    rcases acc with _ | b
    · obtain ⟨hmem, hmax, hacc⟩ := ih (argmaxFirstStep f none x) w h
      refine ⟨?_, ?_, fun b hb => Option.noConfusion hb⟩
      · rcases hmem with hm | hm
        · exact Or.inl (List.mem_cons_of_mem _ hm)
        · exact Or.inl ((Option.some.inj hm) ▸ List.mem_cons_self x rest)
      · intro z hz
        rcases List.mem_cons.mp hz with hz | hz
        · rw [hz]; exact hacc _ rfl
        · exact hmax z hz
    · have hstep : argmaxFirstStep f (some b) x =
        (if f b < f x then some x else some b) := rfl
      by_cases hlt : f b < f x
      · rw [hstep, if_pos hlt] at h
        obtain ⟨hmem, hmax, hacc⟩ := ih (some x) w h
        refine ⟨?_, ?_, ?_⟩
        · rcases hmem with hm | hm
          · exact Or.inl (List.mem_cons_of_mem _ hm)
          · exact Or.inl ((Option.some.inj hm) ▸ List.mem_cons_self x rest)
        · intro z hz
          rcases List.mem_cons.mp hz with hz | hz
          · rw [hz]; exact hacc _ rfl
          · exact hmax z hz
        · intro c hc
          have hbc : b = c := Option.some.inj hc
          rw [← hbc]
          exact le_trans (le_of_lt hlt) (hacc _ rfl)
      · rw [hstep, if_neg hlt] at h
        obtain ⟨hmem, hmax, hacc⟩ := ih (some b) w h
        refine ⟨?_, ?_, ?_⟩
        · rcases hmem with hm | hm
          · exact Or.inl (List.mem_cons_of_mem _ hm)
          · exact Or.inr hm
        · intro z hz
          rcases List.mem_cons.mp hz with hz | hz
          · rw [hz]
            exact le_trans (Nat.le_of_not_lt hlt) (hacc b rfl)
          · exact hmax z hz
        · exact hacc

theorem argmaxLast_foldl_spec (f : CatalogRow → Nat) (rows : List CatalogRow) :
    ∀ (acc : Option CatalogRow) (w : CatalogRow),
      rows.foldl (argmaxLastStep f) acc = some w →
      (w ∈ rows ∨ acc = some w) ∧
      (∀ r ∈ rows, f r ≤ f w) ∧
      (∀ b, acc = some b → f b ≤ f w) := by
  induction rows with
  | nil =>
    intro acc w h
    simp only [List.foldl_nil] at h
    refine ⟨Or.inr h, by simp, fun b hb => ?_⟩
    rw [hb] at h
    cases h
    exact le_refl _
  | cons x rest ih =>
    intro acc w h
    simp only [List.foldl_cons] at h
    rcases acc with _ | b
    · obtain ⟨hmem, hmax, hacc⟩ := ih (argmaxLastStep f none x) w h
      refine ⟨?_, ?_, fun b hb => Option.noConfusion hb⟩
      · rcases hmem with hm | hm
        · exact Or.inl (List.mem_cons_of_mem _ hm)
        · exact Or.inl ((Option.some.inj hm) ▸ List.mem_cons_self x rest)
      · intro z hz
        rcases List.mem_cons.mp hz with hz | hz
        · rw [hz]; exact hacc _ rfl
        · exact hmax z hz
    · have hstep : argmaxLastStep f (some b) x =
        (if f b ≤ f x then some x else some b) := rfl
      by_cases hle : f b ≤ f x
      · rw [hstep, if_pos hle] at h
        obtain ⟨hmem, hmax, hacc⟩ := ih (some x) w h
        refine ⟨?_, ?_, ?_⟩
        · rcases hmem with hm | hm
          · exact Or.inl (List.mem_cons_of_mem _ hm)
          · exact Or.inl ((Option.some.inj hm) ▸ List.mem_cons_self x rest)
        · intro z hz
          rcases List.mem_cons.mp hz with hz | hz
          · rw [hz]; exact hacc _ rfl
          · exact hmax z hz
        · intro c hc
          have hbc : b = c := Option.some.inj hc
          rw [← hbc]
          exact le_trans hle (hacc _ rfl)
      · rw [hstep, if_neg hle] at h
        obtain ⟨hmem, hmax, hacc⟩ := ih (some b) w h
        refine ⟨?_, ?_, ?_⟩
        · rcases hmem with hm | hm
          · exact Or.inl (List.mem_cons_of_mem _ hm)
          · exact Or.inr hm
        · intro z hz
          rcases List.mem_cons.mp hz with hz | hz
          · rw [hz]
            exact le_trans (Nat.le_of_not_le hle) (hacc b rfl)
          · exact hmax z hz
        · exact hacc

theorem argmaxFirst_foldl_some (f : CatalogRow → Nat) (rows : List CatalogRow) :
    ∀ b : CatalogRow, ∃ w, rows.foldl (argmaxFirstStep f) (some b) = some w := by
  induction rows with
  | nil => intro b; exact ⟨b, rfl⟩
  | cons x rest ih =>
    intro b
    simp only [List.foldl_cons]
    have hstep : argmaxFirstStep f (some b) x =
      (if f b < f x then some x else some b) := rfl
    rw [hstep]
    by_cases hlt : f b < f x
    · rw [if_pos hlt]; exact ih x
    · rw [if_neg hlt]; exact ih b

theorem argmaxLast_foldl_some (f : CatalogRow → Nat) (rows : List CatalogRow) :
    ∀ b : CatalogRow, ∃ w, rows.foldl (argmaxLastStep f) (some b) = some w := by
  induction rows with
  | nil => intro b; exact ⟨b, rfl⟩
  | cons x rest ih =>
    intro b
    simp only [List.foldl_cons]
    have hstep : argmaxLastStep f (some b) x =
      (if f b ≤ f x then some x else some b) := rfl
    rw [hstep]
    by_cases hle : f b ≤ f x
    · rw [if_pos hle]; exact ih x
    · rw [if_neg hle]; exact ih b

theorem argmaxFirst_isSome {f : CatalogRow → Nat} {rows : List CatalogRow}
    (h : rows ≠ []) : ∃ w, argmaxFirstBy f rows = some w := by
  cases rows with
  | nil => exact absurd rfl h
  | cons x rest =>
    unfold argmaxFirstBy
    simp only [List.foldl_cons]
    exact argmaxFirst_foldl_some f rest x

theorem argmaxLast_isSome {f : CatalogRow → Nat} {rows : List CatalogRow}
    (h : rows ≠ []) : ∃ w, argmaxLastBy f rows = some w := by
  cases rows with
  | nil => exact absurd rfl h
  | cons x rest =>
    unfold argmaxLastBy
    simp only [List.foldl_cons]
    exact argmaxLast_foldl_some f rest x

theorem argmaxFirst_spec {f : CatalogRow → Nat} {rows : List CatalogRow}
    {w : CatalogRow} (h : argmaxFirstBy f rows = some w) :
    w ∈ rows ∧ ∀ r ∈ rows, f r ≤ f w := by
  obtain ⟨hmem, hmax, _⟩ := argmaxFirst_foldl_spec f rows none w h
  rcases hmem with hm | hm
  · exact ⟨hm, hmax⟩
  · exact Option.noConfusion hm

theorem argmaxLast_spec {f : CatalogRow → Nat} {rows : List CatalogRow}
    {w : CatalogRow} (h : argmaxLastBy f rows = some w) :
    w ∈ rows ∧ ∀ r ∈ rows, f r ≤ f w := by
  obtain ⟨hmem, hmax, _⟩ := argmaxLast_foldl_spec f rows none w h
  rcases hmem with hm | hm
  · exact ⟨hm, hmax⟩
  · exact Option.noConfusion hm

theorem maxDate_foldl_spec (toDt : String → Option PDate) (rows : List CatalogRow) :
    ∀ (acc : Option PDate) (m : PDate),
      rows.foldl (maxDateStep toDt) acc = some m →
      ((∃ r ∈ rows, toDt r.review_cawb = some m) ∨ acc = some m) ∧
      (∀ r ∈ rows, ∀ d, toDt r.review_cawb = some d → d.ble m = true) ∧
      (∀ a, acc = some a → a.ble m = true) := by
  induction rows with
  | nil =>
    intro acc m h
    simp only [List.foldl_nil] at h
    refine ⟨Or.inr h, by simp, fun a ha => ?_⟩
    rw [ha] at h
    cases h
    exact PDate.ble_refl _
  | cons x rest ih =>
    intro acc m h
    simp only [List.foldl_cons] at h
    rcases hx : toDt x.review_cawb with _ | d
    · have hstep : maxDateStep toDt acc x = acc := by
        unfold maxDateStep; rw [hx]
      rw [hstep] at h
      obtain ⟨hmem, hmax, hacc⟩ := ih acc m h
      refine ⟨?_, ?_, hacc⟩
      · rcases hmem with ⟨r, hr, hrd⟩ | hm
        · exact Or.inl ⟨r, List.mem_cons_of_mem _ hr, hrd⟩
        · exact Or.inr hm
      · intro z hz dz hdz
        rcases List.mem_cons.mp hz with hz | hz
        · rw [hz] at hdz; rw [hx] at hdz; exact Option.noConfusion hdz
        · exact hmax z hz dz hdz
    · rcases acc with _ | a
      · have hstep : maxDateStep toDt none x = some d := by
          unfold maxDateStep; rw [hx]
        rw [hstep] at h
        obtain ⟨hmem, hmax, hacc⟩ := ih (some d) m h
        refine ⟨?_, ?_, fun a ha => Option.noConfusion ha⟩
        · rcases hmem with ⟨r, hr, hrd⟩ | hm
          · exact Or.inl ⟨r, List.mem_cons_of_mem _ hr, hrd⟩
          · exact Or.inl ⟨x, List.mem_cons_self x rest, by rw [hx, hm]⟩
        · intro z hz dz hdz
          rcases List.mem_cons.mp hz with hz | hz
          · rw [hz] at hdz
            rw [hx] at hdz
            cases hdz
            exact hacc _ rfl
          · exact hmax z hz dz hdz
      · have hstep : maxDateStep toDt (some a) x =
          (if a.ble d then some d else some a) := by
          unfold maxDateStep; rw [hx]
        by_cases hle : a.ble d = true
        · rw [hstep, if_pos hle] at h
          obtain ⟨hmem, hmax, hacc⟩ := ih (some d) m h
          refine ⟨?_, ?_, ?_⟩
          · rcases hmem with ⟨r, hr, hrd⟩ | hm
            · exact Or.inl ⟨r, List.mem_cons_of_mem _ hr, hrd⟩
            · exact Or.inl ⟨x, List.mem_cons_self x rest, by rw [hx, hm]⟩
          · intro z hz dz hdz
            rcases List.mem_cons.mp hz with hz | hz
            · rw [hz] at hdz
              rw [hx] at hdz
              cases hdz
              exact hacc _ rfl
            · exact hmax z hz dz hdz
          · intro c hc
            have hca : a = c := Option.some.inj hc
            rw [← hca]
            exact PDate.ble_trans hle (hacc _ rfl)
        · have hle' : a.ble d = false := Bool.eq_false_iff.mpr hle
          rw [hstep, if_neg hle] at h
          obtain ⟨hmem, hmax, hacc⟩ := ih (some a) m h
          refine ⟨?_, ?_, ?_⟩
          · rcases hmem with ⟨r, hr, hrd⟩ | hm
            · exact Or.inl ⟨r, List.mem_cons_of_mem _ hr, hrd⟩
            · exact Or.inr hm
          · intro z hz dz hdz
            rcases List.mem_cons.mp hz with hz | hz
            · rw [hz] at hdz
              rw [hx] at hdz
              cases hdz
              exact PDate.ble_trans (PDate.ble_of_not_ble hle') (hacc _ rfl)
            · exact hmax z hz dz hdz
          · exact hacc

theorem maxDate_foldl_some (toDt : String → Option PDate) (rows : List CatalogRow) :
    ∀ a : PDate, ∃ m, rows.foldl (maxDateStep toDt) (some a) = some m := by
  induction rows with
  | nil => intro a; exact ⟨a, rfl⟩
  | cons x rest ih =>
    intro a
    simp only [List.foldl_cons]
    rcases hx : toDt x.review_cawb with _ | d
    · have hstep : maxDateStep toDt (some a) x = some a := by
        unfold maxDateStep; rw [hx]
      rw [hstep]
      exact ih a
    · have hstep : maxDateStep toDt (some a) x =
        (if a.ble d then some d else some a) := by
        unfold maxDateStep; rw [hx]
      rw [hstep]
      by_cases hle : a.ble d = true
      · rw [if_pos hle]; exact ih d
      · rw [if_neg hle]; exact ih a

theorem maxDate_isSome (toDt : String → Option PDate) (rows : List CatalogRow)
    (r : CatalogRow) (hr : r ∈ rows) (hd : (toDt r.review_cawb).isSome = true) :
    ∃ m, maxDateOf toDt rows = some m := by
  unfold maxDateOf
  induction rows with
  | nil => exact absurd hr (List.not_mem_nil r)
  | cons x rest ih =>
    simp only [List.foldl_cons]
    rcases hx : toDt x.review_cawb with _ | d
    · have hstep : maxDateStep toDt none x = none := by
        unfold maxDateStep; rw [hx]
      rw [hstep]
      rcases List.mem_cons.mp hr with hh | hh
      · rw [hh, hx] at hd; exact Bool.noConfusion hd
      · exact ih hh
    · have hstep : maxDateStep toDt none x = some d := by
        unfold maxDateStep; rw [hx]
      rw [hstep]
      exact maxDate_foldl_some toDt rest d

theorem pick_latest_row_spec (toDt : String → Option PDate)
    (group : List CatalogRow) (hne : group ≠ []) :
    ∃ w, pick_latest_row toDt group = some w ∧ isLatestPickSpec toDt group w := by
  rcases hmd : maxDateOf toDt
      (group.filter (fun r => (toDt r.review_cawb).isSome)) with _ | md
  · have hpick : pick_latest_row toDt group =
        argmaxFirstBy (·.row_order) group := by
      unfold pick_latest_row
      rw [hmd]
    have hnone : ∀ r ∈ group, toDt r.review_cawb = none := by
      intro r hr
      rcases hx : toDt r.review_cawb with _ | d
      · rfl
      · exfalso
        have hmem : r ∈ group.filter (fun r => (toDt r.review_cawb).isSome) :=
          List.mem_filter.mpr ⟨hr, by rw [hx]; rfl⟩
        obtain ⟨m, hm⟩ := maxDate_isSome toDt
          (group.filter (fun r => (toDt r.review_cawb).isSome)) r hmem
          (by rw [hx]; rfl)
        rw [hmd] at hm
        exact Option.noConfusion hm
    obtain ⟨w, hw⟩ := argmaxFirst_isSome (f := (·.row_order)) hne
    obtain ⟨hwmem, hwmax⟩ := argmaxFirst_spec hw
    rw [hpick]
    refine ⟨w, hw, hwmem, ?_, fun _ => hwmax⟩
    · rintro ⟨r, hr, hrd⟩
      rw [hnone r hr] at hrd
      exact Bool.noConfusion hrd
  · have hpick : pick_latest_row toDt group =
        argmaxFirstBy (·.row_order)
          ((group.filter (fun r => (toDt r.review_cawb).isSome)).filter
            (fun r => toDt r.review_cawb == some md)) := by
      unfold pick_latest_row
      rw [hmd]
    obtain ⟨hatt, hmax, _⟩ := maxDate_foldl_spec toDt
      (group.filter (fun r => (toDt r.review_cawb).isSome)) none md hmd
    rcases hatt with ⟨ra, hra, hrad⟩ | hc
    swap
    · exact absurd hc (by simp)
    have hmaxne : ((group.filter (fun r => (toDt r.review_cawb).isSome)).filter
        (fun r => toDt r.review_cawb == some md)) ≠ [] := by
      intro hnil
      have hmem : ra ∈ (group.filter (fun r => (toDt r.review_cawb).isSome)).filter
          (fun r => toDt r.review_cawb == some md) :=
        List.mem_filter.mpr ⟨hra, by rw [hrad]; exact beq_self_eq_true _⟩
      rw [hnil] at hmem
      exact List.not_mem_nil ra hmem
    obtain ⟨w, hw⟩ := argmaxFirst_isSome (f := (·.row_order)) hmaxne
    obtain ⟨hwmem, hwmax⟩ := argmaxFirst_spec hw
    have hwdated := (List.mem_filter.mp hwmem).1
    have hwbeq := (List.mem_filter.mp hwmem).2
    have hwd : toDt w.review_cawb = some md := by
      have h := hwbeq
      rwa [beq_iff_eq] at h
    have hwgroup : w ∈ group := (List.mem_filter.mp hwdated).1
    rw [hpick]
    refine ⟨w, hw, hwgroup, fun _ => ⟨by rw [hwd]; rfl, ?_, ?_⟩, ?_⟩
    · intro r hr dr dw hdr hdw
      rw [hwd] at hdw
      cases hdw
      exact hmax r (List.mem_filter.mpr ⟨hr, by rw [hdr]; rfl⟩) dr hdr
    · intro r hr hrw
      rw [hwd] at hrw
      have hrmem : r ∈ (group.filter (fun r => (toDt r.review_cawb).isSome)).filter
          (fun r => toDt r.review_cawb == some md) :=
        List.mem_filter.mpr ⟨List.mem_filter.mpr ⟨hr, by rw [hrw]; rfl⟩,
          by rw [hrw]; exact beq_self_eq_true _⟩
      exact hwmax r hrmem
    · intro hnone
      rw [hnone ra ((List.mem_filter.mp hra).1)] at hrad
      exact Option.noConfusion hrad

theorem uniqueKeysAux_mem (l : List String) :
    ∀ (seen : List String) (x : String),
      x ∈ uniqueKeysAux seen l ↔ (x ∈ l ∧ x ∉ seen) := by
  induction l with
  | nil => intro seen x; simp [uniqueKeysAux]
  | cons a rest ih =>
    intro seen x
    unfold uniqueKeysAux
    by_cases hs : seen.contains a = true
    · rw [if_pos hs, ih seen x]
      have ha : a ∈ seen := List.elem_iff.mp hs
      constructor
      · rintro ⟨h1, h2⟩
        exact ⟨List.mem_cons_of_mem _ h1, h2⟩
      · rintro ⟨h1, h2⟩
        rcases List.mem_cons.mp h1 with h1 | h1
        · exact absurd (h1 ▸ ha) h2
        · exact ⟨h1, h2⟩
    · rw [if_neg hs]
      have ha : a ∉ seen := fun hm => hs (List.elem_iff.mpr hm)
      constructor
      · intro h
        rcases List.mem_cons.mp h with h | h
        · exact ⟨h ▸ List.mem_cons_self a rest, h ▸ ha⟩
        · obtain ⟨h1, h2⟩ := (ih (a :: seen) x).mp h
          exact ⟨List.mem_cons_of_mem _ h1,
            fun hm => h2 (List.mem_cons_of_mem _ hm)⟩
      · rintro ⟨h1, h2⟩
        rcases List.mem_cons.mp h1 with h1 | h1
        · exact h1 ▸ List.mem_cons_self a _
        · by_cases hxa : x = a
          · exact hxa ▸ List.mem_cons_self a _
          · refine List.mem_cons_of_mem _ ((ih (a :: seen) x).mpr ⟨h1, ?_⟩)
            intro hm
            rcases List.mem_cons.mp hm with hm | hm
            · exact hxa hm
            · exact h2 hm

theorem uniqueKeys_mem {l : List String} {x : String} :
    x ∈ uniqueKeys l ↔ x ∈ l := by
  unfold uniqueKeys
  rw [uniqueKeysAux_mem l [] x]
  simp

theorem uniqueKeysAux_nodup (l : List String) :
    ∀ seen : List String, (uniqueKeysAux seen l).Nodup := by
  induction l with
  | nil => intro seen; simp [uniqueKeysAux]
  | cons a rest ih =>
    intro seen
    unfold uniqueKeysAux
    by_cases hs : seen.contains a = true
    · rw [if_pos hs]; exact ih seen
    · rw [if_neg hs]
      refine List.nodup_cons.mpr ⟨?_, ih (a :: seen)⟩
      intro hmem
      obtain ⟨_, h2⟩ := (uniqueKeysAux_mem rest (a :: seen) a).mp hmem
      exact h2 (List.mem_cons_self a seen)

theorem uniqueKeys_nodup (l : List String) : (uniqueKeys l).Nodup :=
  uniqueKeysAux_nodup l []

theorem group_ne_nil {rows : List CatalogRow} {cid : String}
    (h : cid ∈ rows.map (·.client_id)) :
    rows.filter (fun r => r.client_id == cid) ≠ [] := by
  obtain ⟨r, hr, hrc⟩ := List.mem_map.mp h
  intro hnil
  have hmem : r ∈ rows.filter (fun x => x.client_id == cid) :=
    List.mem_filter.mpr ⟨hr, by rw [hrc]; exact beq_self_eq_true _⟩
  rw [hnil] at hmem
  exact List.not_mem_nil r hmem

theorem dedupRowFor_some (toDt : String → Option PDate) (rows : List CatalogRow)
    (cid : String) (h : cid ∈ rows.map (·.client_id)) :
    ∃ w l ra,
      pick_latest_row toDt (rows.filter (fun x => x.client_id == cid)) = some w ∧
      argmaxLastBy (·.row_order) (rows.filter (fun x => x.client_id == cid)) = some l ∧
      dedupRowFor toDt rows cid = some ra ∧
      ra = { w with review_cawb := l.review_cawb, region := l.region,
                    region1 := l.region1, region2 := l.region2 } ∧
      w.client_id = cid ∧
      isLatestPickSpec toDt (rows.filter (fun x => x.client_id == cid)) w ∧
      l ∈ rows.filter (fun x => x.client_id == cid) ∧
      (∀ x ∈ rows.filter (fun x => x.client_id == cid), x.row_order ≤ l.row_order) := by
  have hne := group_ne_nil h
  obtain ⟨w, hw, hspec⟩ := pick_latest_row_spec toDt _ hne
  obtain ⟨l, hl⟩ := argmaxLast_isSome hne
  obtain ⟨hlmem, hlmax⟩ := argmaxLast_spec hl
  have hwc : w.client_id = cid := by
    have hf := (List.mem_filter.mp hspec.1).2
    rwa [beq_iff_eq] at hf
  refine ⟨w, l, _, hw, hl, ?_, rfl, hwc, hspec, hlmem, hlmax⟩
  unfold dedupRowFor
  rw [hw, hl]

theorem dedup_mem {toDt : String → Option PDate} {rows : List CatalogRow}
    {r : CatalogRow} (h : r ∈ deduplicate_latest_clients toDt rows) :
    ∃ cid, cid ∈ rows.map (·.client_id) ∧ dedupRowFor toDt rows cid = some r := by
  unfold deduplicate_latest_clients at h
  rw [(List.perm_insertionSort rowLe _).mem_iff] at h
  obtain ⟨cid, hcid, hF⟩ := List.mem_filterMap.mp h
  exact ⟨cid, uniqueKeys_mem.mp hcid, hF⟩

theorem countP_filterMap_unique (toDt : String → Option PDate)
    (rows : List CatalogRow) :
    ∀ ids : List String, ids.Nodup →
      (∀ c ∈ ids, c ∈ rows.map (·.client_id)) →
      ∀ cid, (ids.filterMap (dedupRowFor toDt rows)).countP
          (fun r => r.client_id == cid) =
        if cid ∈ ids then 1 else 0 := by
  intro ids
  induction ids with
  | nil => intro _ _ cid; simp
  | cons a rest ih =>
    intro hnd hsub cid
    obtain ⟨w, l, ra, hw, hl, hF, hra, hwc, _, _, _⟩ :=
      dedupRowFor_some toDt rows a (hsub a (List.mem_cons_self a rest))
    rw [List.filterMap_cons, hF, List.countP_cons,
      ih (List.nodup_cons.mp hnd).2 (fun c hc => hsub c (List.mem_cons_of_mem _ hc)) cid]
    have hrac : ra.client_id = a := by rw [hra]; exact hwc
    by_cases hca : cid = a
    · subst hca
      have hnotin : cid ∉ rest := (List.nodup_cons.mp hnd).1
      rw [if_neg hnotin, if_pos (List.mem_cons_self cid rest)]
      simp [hrac]
    · have hbeq : (ra.client_id == cid) = false := by
        rw [hrac]
        simp only [beq_eq_false_iff_ne, Ne]
        exact fun hx => hca hx.symm
      have hmem : (cid ∈ a :: rest) ↔ (cid ∈ rest) := by
        constructor
        · intro hx
          rcases List.mem_cons.mp hx with hx | hx
          · exact absurd hx hca
          · exact hx
        · intro hx
          exact List.mem_cons_of_mem _ hx
      rw [hbeq]
      simp only [Bool.false_eq_true, if_false, Nat.add_zero]
      by_cases hcr : cid ∈ rest
      · rw [if_pos hcr, if_pos (hmem.mpr hcr)]
      · rw [if_neg hcr, if_neg (fun hx => hcr (hmem.mp hx))]

theorem dedup_countP (toDt : String → Option PDate) (rows : List CatalogRow)
    (cid : String) :
    (deduplicate_latest_clients toDt rows).countP (fun r => r.client_id == cid) =
      if cid ∈ rows.map (·.client_id) then 1 else 0 := by
  unfold deduplicate_latest_clients
  rw [(List.perm_insertionSort rowLe _).countP_eq]
  rw [countP_filterMap_unique toDt rows _ (uniqueKeys_nodup _)
    (fun c hc => uniqueKeys_mem.mp hc) cid]
  by_cases hm : cid ∈ rows.map (·.client_id)
  · rw [if_pos (uniqueKeys_mem.mpr hm), if_pos hm]
  · rw [if_neg (fun hx => hm (uniqueKeys_mem.mp hx)), if_neg hm]

theorem dedup_sorted (toDt : String → Option PDate) (rows : List CatalogRow) :
    ((deduplicate_latest_clients toDt rows).map (·.client_id)).Pairwise (· ≤ ·) := by
  unfold deduplicate_latest_clients
  have hs := List.sorted_insertionSort rowLe
    ((uniqueKeys (rows.map (·.client_id))).filterMap (dedupRowFor toDt rows))
  exact List.Pairwise.map _ (fun a b hab => hab) hs

/-! ## Lemmas: the record-level edit log -/

theorem persist_user_edit_ok_eq {today : PDate} {log : List EditEntry}
    {cid author : String} {vals : EditValues} {eid ts : String}
    (hacc : payloadAccepted today vals = true) :
    persist_user_edit today log cid author vals eid ts =
      (.ok (log.map (deactivateFor cid) ++
          [⟨eid, cid, (normalizedOf today vals).review_date,
            (normalizedOf today vals).layer_date, (normalizedOf today vals).comment,
            author, ts, true, prevEntryIdOf log cid⟩],
        eid, oldValuesOf log cid, normalizedOf today vals),
       [.lockAcquired, .editLogWrite]) := by
  unfold payloadAccepted at hacc
  rcases hE : validate_edit_payload today vals.review_date vals.layer_date
      vals.test_date vals.comment with ⟨b, e, n⟩
  rw [hE] at hacc
  cases b
  · exact absurd hacc (by simp)
  · have hn : normalizedOf today vals = n := by unfold normalizedOf; rw [hE]
    unfold persist_user_edit
    rw [hE, hn]
    rfl

theorem persist_user_edit_ok_inv {today : PDate} {log : List EditEntry}
    {cid author : String} {vals : EditValues} {eid ts : String}
    {log' : List EditEntry} {eid' : String} {old nv : EditValues}
    (h : (persist_user_edit today log cid author vals eid ts).1 =
      .ok (log', eid', old, nv)) :
    payloadAccepted today vals = true ∧
    log' = log.map (deactivateFor cid) ++
      [⟨eid, cid, (normalizedOf today vals).review_date,
        (normalizedOf today vals).layer_date, (normalizedOf today vals).comment,
        author, ts, true, prevEntryIdOf log cid⟩] ∧
    eid' = eid ∧ old = oldValuesOf log cid ∧ nv = normalizedOf today vals := by
  rcases hb : payloadAccepted today vals with _ | _
  · exfalso
    unfold payloadAccepted at hb
    unfold persist_user_edit at h
    rcases hE : validate_edit_payload today vals.review_date vals.layer_date
        vals.test_date vals.comment with ⟨b, e, n⟩
    rw [hE] at hb h
    cases hb
    simp at h
  · rw [persist_user_edit_ok_eq hb] at h
    simp only [Except.ok.injEq, Prod.mk.injEq] at h
    obtain ⟨h1, h2, h3, h4⟩ := h
    exact ⟨rfl, h1.symm, h2.symm, h3.symm, h4.symm⟩

theorem deactivateFor_client (cid : String) (e : EditEntry) :
    (deactivateFor cid e).client_id = e.client_id := by
  unfold deactivateFor; split <;> rfl

theorem deactivateFor_active (cid : String) (e : EditEntry) :
    (deactivateFor cid e).is_active = (e.is_active && !(e.client_id == cid)) := by
  unfold deactivateFor
  rcases hc : (e.client_id == cid) with _ | _ <;>
    rcases ha : e.is_active with _ | _ <;> simp [hc, ha]

theorem deactivateFor_eq_of_ne {cid : String} {e : EditEntry}
    (h : (e.client_id == cid) = false) : deactivateFor cid e = e := by
  unfold deactivateFor
  rw [h]
  rfl

theorem activeFor_append (a b : List EditEntry) (cid : String) :
    activeFor (a ++ b) cid = activeFor a cid ++ activeFor b cid := by
  simp [activeFor, List.filter_append]

theorem activeFor_single_self {e : EditEntry} {cid : String}
    (h1 : e.client_id = cid) (h2 : e.is_active = true) : activeFor [e] cid = [e] := by
  simp [activeFor, List.filter_cons, h1, h2]

theorem activeFor_single_other {e : EditEntry} {cid : String}
    (h1 : ¬(e.client_id = cid)) : activeFor [e] cid = [] := by
  simp [activeFor, List.filter_cons, h1]

theorem activeFor_map_deactivate_self (log : List EditEntry) (cid : String) :
    activeFor (log.map (deactivateFor cid)) cid = [] := by
  induction log with
  | nil => rfl
  | cons e rest ih =>
    unfold activeFor at *
    simp only [List.map_cons, List.filter_cons]
    have hp : (((deactivateFor cid e).client_id == cid) &&
        (deactivateFor cid e).is_active) = false := by
      rw [deactivateFor_client, deactivateFor_active]
      rcases hc : (e.client_id == cid) with _ | _ <;> simp [hc]
    simp [hp, ih]

theorem activeFor_map_deactivate_other {log : List EditEntry} {cid cid' : String}
    (hne : cid' ≠ cid) :
    activeFor (log.map (deactivateFor cid)) cid' = activeFor log cid' := by
  induction log with
  | nil => rfl
  | cons e rest ih =>
    unfold activeFor at *
    simp only [List.map_cons, List.filter_cons]
    rcases hc : (e.client_id == cid) with _ | _
    · rw [deactivateFor_eq_of_ne hc, ih]
    · have he : e.client_id = cid := by simpa using hc
      have h1 : (e.client_id == cid') = false := by
        simp [he]
        exact fun hx => hne hx.symm
      have h2 : ((deactivateFor cid e).client_id == cid') = false := by
        rw [deactivateFor_client]; exact h1
      simp [h1, h2, ih]

theorem latestActive_foldl_spec (rows : List EditEntry) :
    ∀ (acc : Option EditEntry) (e : EditEntry),
      rows.foldl latestStep acc = some e →
      (e ∈ rows ∨ acc = some e) ∧
      (∀ x ∈ rows, x.change_timestamp ≤ e.change_timestamp) ∧
      (∀ b, acc = some b → b.change_timestamp ≤ e.change_timestamp) := by
  induction rows with
  | nil =>
    intro acc e h
    simp only [List.foldl_nil] at h
    refine ⟨Or.inr h, by simp, fun b hb => ?_⟩
    rw [hb] at h
    cases h
    exact le_refl _
  | cons x rest ih =>
    intro acc e h
    simp only [List.foldl_cons] at h
    rcases acc with _ | b
    · obtain ⟨hmem, hmax, hacc⟩ := ih (latestStep none x) e h
      refine ⟨?_, ?_, fun b hb => Option.noConfusion hb⟩
      · rcases hmem with hm | hm
        · exact Or.inl (List.mem_cons_of_mem _ hm)
        · have : x = e := by
            have : latestStep none x = some x := rfl
            rw [this] at hm
            exact Option.some.inj hm
          exact Or.inl (this ▸ List.mem_cons_self x rest)
      · intro z hz
        rcases List.mem_cons.mp hz with hz | hz
        · rw [hz]; exact hacc _ rfl
        · exact hmax z hz
    · have hstep : latestStep (some b) x =
        (if b.change_timestamp ≤ x.change_timestamp then some x else some b) := rfl
      by_cases hle : b.change_timestamp ≤ x.change_timestamp
      · rw [hstep, if_pos hle] at h
        obtain ⟨hmem, hmax, hacc⟩ := ih (some x) e h
        refine ⟨?_, ?_, ?_⟩
        · rcases hmem with hm | hm
          · exact Or.inl (List.mem_cons_of_mem _ hm)
          · exact Or.inl ((Option.some.inj hm) ▸ List.mem_cons_self x rest)
        · intro z hz
          rcases List.mem_cons.mp hz with hz | hz
          · rw [hz]; exact hacc _ rfl
          · exact hmax z hz
        · intro c hc
          have hbc : b = c := Option.some.inj hc
          rw [← hbc]
          exact le_trans hle (hacc _ rfl)
      · rw [hstep, if_neg hle] at h
        obtain ⟨hmem, hmax, hacc⟩ := ih (some b) e h
        refine ⟨?_, ?_, ?_⟩
        · rcases hmem with hm | hm
          · exact Or.inl (List.mem_cons_of_mem _ hm)
          · exact Or.inr hm
        · intro z hz
          rcases List.mem_cons.mp hz with hz | hz
          · rw [hz]
            exact le_trans (le_of_not_le hle) (hacc b rfl)
          · exact hmax z hz
        · exact hacc

theorem latestActive_spec {rows : List EditEntry} {e : EditEntry}
    (h : latestActive rows = some e) :
    e ∈ rows ∧ ∀ x ∈ rows, x.change_timestamp ≤ e.change_timestamp := by
  obtain ⟨hmem, hmax, _⟩ := latestActive_foldl_spec rows none e h
  rcases hmem with hm | hm
  · exact ⟨hm, hmax⟩
  · exact Option.noConfusion hm

theorem latestActive_foldl_some (rows : List EditEntry) :
    ∀ b : EditEntry, ∃ e, rows.foldl latestStep (some b) = some e := by
  induction rows with
  | nil => intro b; exact ⟨b, rfl⟩
  | cons x rest ih =>
    intro b
    simp only [List.foldl_cons]
    have hstep : latestStep (some b) x =
      (if b.change_timestamp ≤ x.change_timestamp then some x else some b) := rfl
    rw [hstep]
    by_cases hle : b.change_timestamp ≤ x.change_timestamp
    · rw [if_pos hle]; exact ih x
    · rw [if_neg hle]; exact ih b

theorem latestActive_isSome {rows : List EditEntry} (h : rows ≠ []) :
    ∃ e, latestActive rows = some e := by
  cases rows with
  | nil => exact absurd rfl h
  | cons x rest =>
    unfold latestActive
    simp only [List.foldl_cons]
    exact latestActive_foldl_some rest x

theorem getLast?_none_eq_nil {α : Type} {l : List α} (h : l.getLast? = none) :
    l = [] := by
  cases l with
  | nil => rfl
  | cons b m =>
    exfalso
    induction m generalizing b with
    | nil => simp at h
    | cons y ys ih =>
      rw [List.getLast?_cons_cons] at h
      exact ih y h

theorem getLast?_cons_some {α : Type} {l : List α} {a k : α}
    (h : l.getLast? = some k) : (a :: l).getLast? = some k := by
  cases l with
  | nil => simp at h
  | cons b m => rw [List.getLast?_cons_cons]; exact h

theorem runEdits_cons (today : PDate) (log : List EditEntry) (c : EditCall)
    (cs : List EditCall) (hacc : payloadAccepted today c.vals = true) :
    runEdits today log (c :: cs) =
      runEdits today
        (log.map (deactivateFor c.client_id) ++
          [entryOfCall today c (prevEntryIdOf log c.client_id)]) cs := by
  conv_lhs => rw [runEdits]
  rw [persist_user_edit_ok_eq hacc]
  rfl

theorem runEdits_activeFor (today : PDate) :
    ∀ (calls : List EditCall) (log : List EditEntry),
      (∀ c ∈ calls, payloadAccepted today c.vals = true) →
      ∀ cid,
        (match lastCallFor calls cid with
         | some k => ∃ p, activeFor (runEdits today log calls) cid = [entryOfCall today k p]
         | none => activeFor (runEdits today log calls) cid = activeFor log cid) := by
  intro calls
  induction calls with
  | nil =>
    intro log _ cid
    simp [runEdits, lastCallFor]
  | cons c cs ih =>
    intro log hacc cid
    have hc := hacc c (List.mem_cons_self c cs)
    have hcs : ∀ k ∈ cs, payloadAccepted today k.vals = true :=
      fun k hk => hacc k (List.mem_cons_of_mem _ hk)
    rw [runEdits_cons today log c cs hc]
    have ih' := ih
      (log.map (deactivateFor c.client_id) ++
        [entryOfCall today c (prevEntryIdOf log c.client_id)]) hcs cid
    rcases hl : lastCallFor cs cid with _ | k
    · rw [hl] at ih'
      rcases hcc : (c.client_id == cid) with _ | _
      · have hlc : lastCallFor (c :: cs) cid = none := by
          unfold lastCallFor at hl ⊢
          simp only [List.filter_cons, hcc]
          exact hl
        rw [hlc, ih', activeFor_append]
        have hne : cid ≠ c.client_id := by
          intro he
          rw [he] at hcc
          simp at hcc
        rw [activeFor_map_deactivate_other hne,
          activeFor_single_other (show ¬((entryOfCall today c
            (prevEntryIdOf log c.client_id)).client_id = cid) from fun hx =>
              hne (hx ▸ rfl))]
        simp
      · have hcl : c.client_id = cid := by simpa using hcc
        have hlc : lastCallFor (c :: cs) cid = some c := by
          unfold lastCallFor at hl ⊢
          have hnil := getLast?_none_eq_nil hl
          simp [List.filter_cons, hcc, hnil]
        rw [hlc]
        refine ⟨prevEntryIdOf log c.client_id, ?_⟩
        rw [ih', activeFor_append]
        have h1 : activeFor (log.map (deactivateFor c.client_id)) cid = [] := by
          rw [← hcl]
          exact activeFor_map_deactivate_self log c.client_id
        rw [h1,
          activeFor_single_self (show (entryOfCall today c
            (prevEntryIdOf log c.client_id)).client_id = cid from hcl) rfl]
        simp
    · rw [hl] at ih'
      have hlc : lastCallFor (c :: cs) cid = some k := by
        unfold lastCallFor at hl ⊢
        rcases hcc : (c.client_id == cid) with _ | _
        · simp only [List.filter_cons, hcc]
          exact hl
        · simp only [List.filter_cons, hcc, if_true]
          exact getLast?_cons_some hl
      rw [hlc]
      exact ih'

theorem deactivateFor_spec (cid : String) (e : EditEntry) :
    (deactivateFor cid e).entry_id = e.entry_id ∧
    (deactivateFor cid e).client_id = e.client_id ∧
    (deactivateFor cid e).review_date = e.review_date ∧
    (deactivateFor cid e).layer_date = e.layer_date ∧
    (deactivateFor cid e).comment = e.comment ∧
    (deactivateFor cid e).changed_by = e.changed_by ∧
    (deactivateFor cid e).change_timestamp = e.change_timestamp ∧
    (deactivateFor cid e).previous_entry_id = e.previous_entry_id ∧
    (deactivateFor cid e).is_active =
      (if e.client_id = cid ∧ e.is_active = true then false else e.is_active) := by
  unfold deactivateFor
  split
  · rename_i hc
    rw [Bool.and_eq_true, beq_iff_eq] at hc
    simp [hc.1, hc.2]
  · rename_i hc
    have hn : ¬(e.client_id = cid ∧ e.is_active = true) := by
      simpa [Bool.and_eq_true, beq_iff_eq] using hc
    simp [hn]

/-! ## Claims about the edit log -/

/-- C1: an accepted `persist_user_edit` call leaves exactly one active
entry for the edited entity — the newly appended one — flipping every
previously active entry for that entity to false (also when prior
corruption left several) while sourcing the returned old values from a
maximal-timestamp previously active entry, and leaving other entities'
active entries unchanged; consequently, from an empty log, after any
sequence of accepted calls every entity has at most one active entry, and
it is the entry created by the most recent accepted call for it. -/
theorem C1_active_entry_invariant (today : PDate) :
    (∀ (log : List EditEntry) (cid author : String) (vals : EditValues)
        (eid ts : String) (log' : List EditEntry) (eid' : String)
        (old nv : EditValues),
      (persist_user_edit today log cid author vals eid ts).1 =
        .ok (log', eid', old, nv) →
      (∃ p, activeFor log' cid =
        [⟨eid, cid, nv.review_date, nv.layer_date, nv.comment, author, ts, true, p⟩]) ∧
      (∀ cid', cid' ≠ cid → activeFor log' cid' = activeFor log cid') ∧
      (activeFor log cid ≠ [] →
        ∃ prev, prev ∈ activeFor log cid ∧
          (∀ x ∈ activeFor log cid, x.change_timestamp ≤ prev.change_timestamp) ∧
          old = ⟨prev.review_date, prev.layer_date, "", prev.comment⟩)) ∧
    (∀ (calls : List EditCall),
      (∀ c ∈ calls, payloadAccepted today c.vals = true) →
      ∀ cid,
        (activeFor (runEdits today [] calls) cid).length ≤ 1 ∧
        (match lastCallFor calls cid with
         | some k => ∃ p, activeFor (runEdits today [] calls) cid =
            [entryOfCall today k p]
         | none => activeFor (runEdits today [] calls) cid = [])) := by
  constructor
  · intro log cid author vals eid ts log' eid' old nv h
    obtain ⟨hacc, hlog, heid, hold, hnv⟩ := persist_user_edit_ok_inv h
    subst hlog heid hold hnv
    refine ⟨⟨prevEntryIdOf log cid, ?_⟩, ?_, ?_⟩
    · rw [activeFor_append, activeFor_map_deactivate_self,
        activeFor_single_self rfl rfl]
      simp
    · intro cid' hne
      rw [activeFor_append, activeFor_map_deactivate_other hne,
        activeFor_single_other (fun hx => hne hx.symm)]
      simp
    · intro hAF
      obtain ⟨p, hp⟩ := latestActive_isSome hAF
      obtain ⟨hmem, hmax⟩ := latestActive_spec hp
      refine ⟨p, hmem, hmax, ?_⟩
      unfold oldValuesOf
      rw [show (List.filter (fun e => e.client_id == cid && e.is_active) log) =
        activeFor log cid from rfl, hp]
  · intro calls hacc cid
    have h := runEdits_activeFor today calls [] hacc cid
    have h0 : activeFor ([] : List EditEntry) cid = [] := rfl
    rw [h0] at h
    rcases hl : lastCallFor calls cid with _ | k
    · rw [hl] at h
      exact ⟨by rw [h]; simp, h⟩
    · rw [hl] at h
      obtain ⟨p, hp⟩ := h
      exact ⟨by rw [hp]; simp, ⟨p, hp⟩⟩

/-- Witness for C1: two accepted calls for client `c1`; afterwards the
active entry is the second call's entry. -/
theorem C1_active_entry_invariant_witness :
    (activeFor (runEdits ⟨2025, 6, 15⟩ []
        [⟨"c1", "alice", ⟨"2024-01-05", "", "", "x"⟩, "e1", "2025-01-01T00:00:00Z"⟩,
         ⟨"c1", "bob", ⟨"2024-02-06", "", "", "y"⟩, "e2", "2025-01-02T00:00:00Z"⟩])
      "c1").length ≤ 1 ∧
    (match lastCallFor
        [⟨"c1", "alice", ⟨"2024-01-05", "", "", "x"⟩, "e1", "2025-01-01T00:00:00Z"⟩,
         ⟨"c1", "bob", ⟨"2024-02-06", "", "", "y"⟩, "e2", "2025-01-02T00:00:00Z"⟩]
        "c1" with
     | some k => ∃ p, activeFor (runEdits ⟨2025, 6, 15⟩ []
        [⟨"c1", "alice", ⟨"2024-01-05", "", "", "x"⟩, "e1", "2025-01-01T00:00:00Z"⟩,
         ⟨"c1", "bob", ⟨"2024-02-06", "", "", "y"⟩, "e2", "2025-01-02T00:00:00Z"⟩])
        "c1" = [entryOfCall ⟨2025, 6, 15⟩ k p]
     | none => activeFor (runEdits ⟨2025, 6, 15⟩ []
        [⟨"c1", "alice", ⟨"2024-01-05", "", "", "x"⟩, "e1", "2025-01-01T00:00:00Z"⟩,
         ⟨"c1", "bob", ⟨"2024-02-06", "", "", "y"⟩, "e2", "2025-01-02T00:00:00Z"⟩])
        "c1" = []) :=
  (C1_active_entry_invariant ⟨2025, 6, 15⟩).2
    [⟨"c1", "alice", ⟨"2024-01-05", "", "", "x"⟩, "e1", "2025-01-01T00:00:00Z"⟩,
     ⟨"c1", "bob", ⟨"2024-02-06", "", "", "y"⟩, "e2", "2025-01-02T00:00:00Z"⟩]
    (by decide) "c1"

/-- C10: an accepted `persist_user_edit` call appends exactly one new row
and otherwise changes nothing: every pre-existing row keeps its position
and all its fields except that `is_active` flips to false exactly on the
target entity's previously active rows; rows of other entities are
untouched. -/
theorem C10_frame_condition (today : PDate) (log : List EditEntry)
    (cid author : String) (vals : EditValues) (eid ts : String)
    (log' : List EditEntry) (eid' : String) (old nv : EditValues)
    (h : (persist_user_edit today log cid author vals eid ts).1 =
      .ok (log', eid', old, nv)) :
    log'.length = log.length + 1 ∧
    (∀ i (hi : i < log.length) (hi' : i < log'.length),
      (log'.get ⟨i, hi'⟩).entry_id = (log.get ⟨i, hi⟩).entry_id ∧
      (log'.get ⟨i, hi'⟩).client_id = (log.get ⟨i, hi⟩).client_id ∧
      (log'.get ⟨i, hi'⟩).review_date = (log.get ⟨i, hi⟩).review_date ∧
      (log'.get ⟨i, hi'⟩).layer_date = (log.get ⟨i, hi⟩).layer_date ∧
      (log'.get ⟨i, hi'⟩).comment = (log.get ⟨i, hi⟩).comment ∧
      (log'.get ⟨i, hi'⟩).changed_by = (log.get ⟨i, hi⟩).changed_by ∧
      (log'.get ⟨i, hi'⟩).change_timestamp = (log.get ⟨i, hi⟩).change_timestamp ∧
      (log'.get ⟨i, hi'⟩).previous_entry_id = (log.get ⟨i, hi⟩).previous_entry_id ∧
      (log'.get ⟨i, hi'⟩).is_active =
        (if (log.get ⟨i, hi⟩).client_id = cid ∧ (log.get ⟨i, hi⟩).is_active = true
         then false else (log.get ⟨i, hi⟩).is_active)) ∧
    (∃ p, log'.getLast? = some ⟨eid, cid, nv.review_date, nv.layer_date, nv.comment,
      author, ts, true, p⟩) := by
  obtain ⟨hacc, hlog, heid, hold, hnv⟩ := persist_user_edit_ok_inv h
  subst hlog
  refine ⟨by simp, ?_, ?_⟩
  · intro i hi hi'
    have hget : ∀ (x : EditEntry) (hx : i < (log.map (deactivateFor cid) ++ [x]).length),
        (log.map (deactivateFor cid) ++ [x]).get ⟨i, hx⟩ =
          deactivateFor cid (log.get ⟨i, hi⟩) := by
      intro x hx
      rw [List.get_eq_getElem, List.get_eq_getElem,
        List.getElem_append_left (by simpa using hi), List.getElem_map]
    rw [hget _ hi']
    exact deactivateFor_spec cid (log.get ⟨i, hi⟩)
  · exact ⟨prevEntryIdOf log cid, by rw [hnv, List.getLast?_concat]⟩

/-- Witness for C10: one prior active row for `c1`, then an accepted call. -/
theorem C10_frame_condition_witness :
    (persist_user_edit ⟨2025, 6, 15⟩
        [⟨"e0", "c1", "2024-01-01", "", "z", "carol", "2025-01-01T00:00:00Z", true, ""⟩]
        "c1" "alice" ⟨"2024-01-05", "", "", "x"⟩ "e1" "2025-01-02T00:00:00Z").1 =
      .ok ([⟨"e0", "c1", "2024-01-01", "", "z", "carol", "2025-01-01T00:00:00Z",
              false, ""⟩,
            ⟨"e1", "c1", "2024-01-05", "", "x", "alice", "2025-01-02T00:00:00Z",
              true, "e0"⟩],
           "e1", ⟨"2024-01-01", "", "", "z"⟩, ⟨"2024-01-05", "", "", "x"⟩) ∧
    ([⟨"e0", "c1", "2024-01-01", "", "z", "carol", "2025-01-01T00:00:00Z", false, ""⟩,
      ⟨"e1", "c1", "2024-01-05", "", "x", "alice", "2025-01-02T00:00:00Z", true, "e0"⟩] :
        List EditEntry).length = 2 ∧
    ∃ p, ([⟨"e0", "c1", "2024-01-01", "", "z", "carol", "2025-01-01T00:00:00Z",
              false, ""⟩,
           ⟨"e1", "c1", "2024-01-05", "", "x", "alice", "2025-01-02T00:00:00Z",
              true, "e0"⟩] : List EditEntry).getLast? =
      some ⟨"e1", "c1", "2024-01-05", "", "x", "alice", "2025-01-02T00:00:00Z",
        true, p⟩ := by
  have hok : (persist_user_edit ⟨2025, 6, 15⟩
      [⟨"e0", "c1", "2024-01-01", "", "z", "carol", "2025-01-01T00:00:00Z", true, ""⟩]
      "c1" "alice" ⟨"2024-01-05", "", "", "x"⟩ "e1" "2025-01-02T00:00:00Z").1 =
      .ok ([⟨"e0", "c1", "2024-01-01", "", "z", "carol", "2025-01-01T00:00:00Z",
              false, ""⟩,
            ⟨"e1", "c1", "2024-01-05", "", "x", "alice", "2025-01-02T00:00:00Z",
              true, "e0"⟩],
           "e1", ⟨"2024-01-01", "", "", "z"⟩, ⟨"2024-01-05", "", "", "x"⟩) := by
    rfl
  have h := C10_frame_condition _ _ _ _ _ _ _ _ _ _ _ hok
  exact ⟨hok, h.1, h.2.2⟩

/-! ## Claims about deduplication -/

/-- C4: deduplication selects exactly one row per entity — among rows with
a parseable review date the one with the maximum date, ties broken by
maximum row order, else the maximum row order overall — and the output is
sorted by entity id; on the claim's example rows (orders 0, 2, 1 with
dates 2023-01-01, 2023-06-01, 2023-06-01) the chosen row is order 2. -/
theorem C4_dedup_selection (toDt : String → Option PDate) (rows : List CatalogRow) :
    ((deduplicate_latest_clients toDt rows).map (·.client_id)).Pairwise (· ≤ ·) ∧
    (∀ cid, (deduplicate_latest_clients toDt rows).countP
        (fun r => r.client_id == cid) =
      if cid ∈ rows.map (·.client_id) then 1 else 0) ∧
    (∀ r ∈ deduplicate_latest_clients toDt rows,
      ∃ w, w.client_id = r.client_id ∧ r.row_order = w.row_order ∧ r.pod = w.pod ∧
        pick_latest_row toDt (rows.filter (fun x => x.client_id == r.client_id)) =
          some w ∧
        isLatestPickSpec toDt (rows.filter (fun x => x.client_id == r.client_id)) w) ∧
    (pick_latest_row pdToDatetimeISO
        [⟨"1", "G", "r", "r1", "r2", "p", "ca", "rm", "2023-01-01", "sg", "l", 0⟩,
         ⟨"1", "G", "r", "r1", "r2", "p", "ca", "rm", "2023-06-01", "sg", "l", 2⟩,
         ⟨"1", "G", "r", "r1", "r2", "p", "ca", "rm", "2023-06-01", "sg", "l", 1⟩]).map
      (fun r => r.row_order) = some 2 := by
  refine ⟨dedup_sorted toDt rows, dedup_countP toDt rows, ?_, by rfl⟩
  intro r hr
  obtain ⟨cid, hcid, hF⟩ := dedup_mem hr
  obtain ⟨w, l, ra, hw, hl, hF', hra, hwc, hspec, _, _⟩ :=
    dedupRowFor_some toDt rows cid hcid
  rw [hF] at hF'
  have hrra : r = ra := Option.some.inj hF'
  have hrc : r.client_id = cid := by rw [hrra, hra]; exact hwc
  rw [hrc]
  exact ⟨w, hwc.symm ▸ hrc ▸ rfl, by rw [hrra, hra], by rw [hrra, hra], hw, hspec⟩

/-- Witness for C4: the claim's concrete three-row example, where the
chosen row is the one with row order 2. -/
theorem C4_dedup_selection_witness :
    (pick_latest_row pdToDatetimeISO
        [⟨"1", "G", "r", "r1", "r2", "p", "ca", "rm", "2023-01-01", "sg", "l", 0⟩,
         ⟨"1", "G", "r", "r1", "r2", "p", "ca", "rm", "2023-06-01", "sg", "l", 2⟩,
         ⟨"1", "G", "r", "r1", "r2", "p", "ca", "rm", "2023-06-01", "sg", "l", 1⟩]).map
      (fun r => r.row_order) = some 2 :=
  (C4_dedup_selection pdToDatetimeISO []).2.2.2

/-- C3 counterexample: with two rows for client 1 — the date winner (order
0, pod `PODA`) and the last physical occurrence (order 1, pod `PODB`) —
the deduplicated row's pod is `PODA`, taken from the tie-break winner, not
`PODB` from the last occurrence, refuting the claim that the pod display
field equals the last physical occurrence's value. -/
theorem C3_counterexample_pod :
    (deduplicate_latest_clients pdToDatetimeISO
      [⟨"1", "G", "rA", "r1A", "r2A", "PODA", "ca", "rm", "2023-06-01", "sg", "l", 0⟩,
       ⟨"1", "G", "rB", "r1B", "r2B", "PODB", "ca", "rm", "2023-01-01", "sg", "l", 1⟩]).map
      (fun r => (r.pod, r.region, r.region1, r.region2, r.review_cawb)) =
      [("PODA", "rB", "r1B", "r2B", "2023-01-01")] ∧
    (argmaxLastBy (·.row_order)
      [⟨"1", "G", "rA", "r1A", "r2A", "PODA", "ca", "rm", "2023-06-01", "sg", "l", 0⟩,
       ⟨"1", "G", "rB", "r1B", "r2B", "PODB", "ca", "rm", "2023-01-01", "sg", "l", 1⟩]).map
      (fun r => r.pod) = some "PODB" := by
  refine ⟨by rfl, by rfl⟩

/-- C3 (amended): each deduplicated row draws `region`, `region1`,
`region2` and the `review_cawb` display field from the entity's last
physical occurrence (maximal row order), while `pod` comes from the row
chosen by the date tie-break. -/
theorem C3_amended_display_override (toDt : String → Option PDate)
    (rows : List CatalogRow) :
    ∀ r ∈ deduplicate_latest_clients toDt rows,
      ∃ w l,
        pick_latest_row toDt (rows.filter (fun x => x.client_id == r.client_id)) =
          some w ∧
        argmaxLastBy (·.row_order)
          (rows.filter (fun x => x.client_id == r.client_id)) = some l ∧
        l ∈ rows.filter (fun x => x.client_id == r.client_id) ∧
        (∀ x ∈ rows.filter (fun x => x.client_id == r.client_id),
          x.row_order ≤ l.row_order) ∧
        r.region = l.region ∧ r.region1 = l.region1 ∧ r.region2 = l.region2 ∧
        r.review_cawb = l.review_cawb ∧ r.pod = w.pod := by
  intro r hr
  obtain ⟨cid, hcid, hF⟩ := dedup_mem hr
  obtain ⟨w, l, ra, hw, hl, hF', hra, hwc, _, hlmem, hlmax⟩ :=
    dedupRowFor_some toDt rows cid hcid
  rw [hF] at hF'
  have hrra : r = ra := Option.some.inj hF'
  have hrc : r.client_id = cid := by rw [hrra, hra]; exact hwc
  rw [hrc]
  exact ⟨w, l, hw, hl, hlmem, hlmax, by rw [hrra, hra], by rw [hrra, hra],
    by rw [hrra, hra], by rw [hrra, hra], by rw [hrra, hra]⟩

/-- Witness for the amended C3 at the two-row counterexample input. -/
theorem C3_amended_display_override_witness :
    (let rowsEx : List CatalogRow :=
      [⟨"1", "G", "rA", "r1A", "r2A", "PODA", "ca", "rm", "2023-06-01", "sg", "l", 0⟩,
       ⟨"1", "G", "rB", "r1B", "r2B", "PODB", "ca", "rm", "2023-01-01", "sg", "l", 1⟩];
    let r0 : CatalogRow :=
      ⟨"1", "G", "rB", "r1B", "r2B", "PODA", "ca", "rm", "2023-01-01", "sg", "l", 0⟩;
    ∃ w l,
      pick_latest_row pdToDatetimeISO
        (rowsEx.filter (fun x => x.client_id == r0.client_id)) = some w ∧
      argmaxLastBy (·.row_order)
        (rowsEx.filter (fun x => x.client_id == r0.client_id)) = some l ∧
      l ∈ rowsEx.filter (fun x => x.client_id == r0.client_id) ∧
      (∀ x ∈ rowsEx.filter (fun x => x.client_id == r0.client_id),
        x.row_order ≤ l.row_order) ∧
      r0.region = l.region ∧ r0.region1 = l.region1 ∧ r0.region2 = l.region2 ∧
      r0.review_cawb = l.review_cawb ∧ r0.pod = w.pod) :=
  C3_amended_display_override pdToDatetimeISO
    [⟨"1", "G", "rA", "r1A", "r2A", "PODA", "ca", "rm", "2023-06-01", "sg", "l", 0⟩,
     ⟨"1", "G", "rB", "r1B", "r2B", "PODB", "ca", "rm", "2023-01-01", "sg", "l", 1⟩]
    ⟨"1", "G", "rB", "r1B", "r2B", "PODA", "ca", "rm", "2023-01-01", "sg", "l", 0⟩
    (by decide)

/-! ## Claim C2: the dropped `test_date` column -/

/-- C2 (code bug, failing input): an accepted edit with
`test_date = "2024-02-03"` persists a file whose columns are exactly
`USER_INPUT_COLUMNS` — no `test_date` column, so the stored row has lost
the validated test date — and the read-back
`load_user_inputs` → `get_active_user_inputs` raises `KeyError` (`none`)
when selecting `test_date`, instead of returning the normalized values. -/
theorem C2_test_date_dropped :
    persist_user_edit_df ⟨2025, 6, 15⟩ none "c1" "alice"
        ⟨"2024-01-05", "2024-02-01", "2024-02-03", "hello"⟩ "e1"
        "2025-06-15T00:00:00Z" =
      .ok (⟨USER_INPUT_COLUMNS,
            [[("entry_id", "e1"), ("client_id", "c1"),
              ("review_date", "2024-01-05"), ("layer_date", "2024-02-01"),
              ("comment", "hello"), ("changed_by", "alice"),
              ("change_timestamp", "2025-06-15T00:00:00Z"), ("is_active", "True"),
              ("previous_entry_id", "")]]⟩,
           "e1", ⟨"", "", "", ""⟩,
           ⟨"2024-01-05", "2024-02-01", "2024-02-03", "hello"⟩) ∧
    USER_INPUT_COLUMNS.contains "test_date" = false ∧
    get_active_user_inputs (load_user_inputs (some ⟨USER_INPUT_COLUMNS,
      [[("entry_id", "e1"), ("client_id", "c1"),
        ("review_date", "2024-01-05"), ("layer_date", "2024-02-01"),
        ("comment", "hello"), ("changed_by", "alice"),
        ("change_timestamp", "2025-06-15T00:00:00Z"), ("is_active", "True"),
        ("previous_entry_id", "")]]⟩)) = none := by
  refine ⟨by rfl, by rfl, by rfl⟩

/-! ## Claims about the status rule and the validator -/

/-- C5: for a fixed `today`, `_compute_status` yields MISSING exactly on
unparseable review dates, OVERDUE when the parsed date is on or before
`today` minus 12 months, ACTIVE otherwise; in particular, a review date of
exactly 12 months before today is OVERDUE and one of 12 months minus one
day before today is ACTIVE. -/
theorem C5_compute_status (today : PDate)
    (h : today.valid = true) (h2 : 2 ≤ today.year) :
    (∀ s, parse_date today.year s = none → _compute_status today s = "MISSING") ∧
    (∀ s d, parse_date today.year s = some d → d.ble (subMonths12 today) = true →
      _compute_status today s = "OVERDUE") ∧
    (∀ s d, parse_date today.year s = some d → d.ble (subMonths12 today) = false →
      _compute_status today s = "ACTIVE") ∧
    _compute_status today (subMonths12 today).isoformat = "OVERDUE" ∧
    _compute_status today (addDay1 (subMonths12 today)).isoformat = "ACTIVE" := by
  have hcv : (subMonths12 today).valid = true := subMonths12_valid h h2
  have hy : (subMonths12 today).year ≤ 9998 := by
    have h9999 := (PDate.valid_iff.mp h).2.1
    unfold subMonths12
    dsimp only
    omega
  refine ⟨?_, ?_, ?_, ?_, ?_⟩
  · intro s hp; unfold _compute_status; rw [hp]
  · intro s d hp hb; unfold _compute_status; rw [hp]; simp [hb]
  · intro s d hp hb; unfold _compute_status; rw [hp]; simp [hb]
  · unfold _compute_status
    rw [parse_date_isoformat hcv]
    simp [PDate.ble_refl]
  · unfold _compute_status
    rw [parse_date_isoformat (addDay1_valid hcv hy)]
    simp [addDay1_not_ble]

/-- Witness for C5 at `today = 2025-06-15`: review date `2024-06-15` is
OVERDUE and `2024-06-16` is ACTIVE. -/
theorem C5_compute_status_witness :
    (⟨2025, 6, 15⟩ : PDate).valid = true ∧
    _compute_status ⟨2025, 6, 15⟩ (subMonths12 ⟨2025, 6, 15⟩).isoformat = "OVERDUE" ∧
    _compute_status ⟨2025, 6, 15⟩ (addDay1 (subMonths12 ⟨2025, 6, 15⟩)).isoformat =
      "ACTIVE" := by
  have h := C5_compute_status ⟨2025, 6, 15⟩ (by decide) (by decide)
  exact ⟨by decide, h.2.2.2.1, h.2.2.2.2⟩

/-- C6 counterexample: `"2024/05/06"` is none of the three claimed shapes
(`YYYY-MM-DD`, `YYYY-MM`, `YYYY`) yet the non-strict validator accepts it,
so "accepted iff one of exactly three shapes" is false as stated. -/
theorem C6_counterexample_shapes :
    validate_optional_date ⟨2025, 6, 15⟩ "2024/05/06" "review_date" false =
      (true, "", "2024-05-06") ∧
    spec_three_shapes "2024/05/06" = false := by decide

/-- C6 (amended): a non-empty input to a non-strict date field is accepted
iff `parse_date` parses it (which accepts the three documented shapes and
also `YYYY/MM/DD`, `MM/DD/YYYY`, `MM-DD-YYYY`, a bare month number, and
ISO datetime strings) and the parsed date lies between 2022-01-01 and
today; the strict field accepts only inputs matching `\d{4}-\d{2}-\d{2}`. -/
theorem C6_amended_accept_characterization (today : PDate) (v f : String)
    (hne : ¬(normalize_text v = "")) :
    ((validate_optional_date today v f false).1 = true ↔
      ∃ d, parse_date today.year v = some d ∧ d.blt MIN_ALLOWED_DATE = false ∧
        today.blt d = false) ∧
    ((validate_optional_date today v f true).1 = true →
      strictIsoMatch (normalize_text v).data = true) := by
  constructor
  · constructor
    · intro hacc
      obtain ⟨d, hp, h1, h2, _⟩ := validate_optional_date_accepted hne hacc
      exact ⟨d, hp, h1, h2⟩
    · rintro ⟨d, hp, h1, h2⟩
      rcases validate_optional_date_cases today v f false with ⟨hb, _⟩ |
        ⟨d', _, _, _, he⟩ | ⟨_, hreason⟩
      · exact absurd hb hne
      · rw [he]
      · rcases hreason with ⟨hstrict, _⟩ | hpn | ⟨d', hp', hr⟩
        · exact Bool.noConfusion hstrict
        · rw [hpn] at hp; exact Option.noConfusion hp
        · rw [hp'] at hp
          cases hp
          rcases hr with hr | hr
          · rw [h1] at hr; exact Bool.noConfusion hr
          · rw [h2] at hr; exact Bool.noConfusion hr
  · intro hacc
    rcases hm : strictIsoMatch (normalize_text v).data with _ | _
    · exfalso
      unfold validate_optional_date at hacc
      rw [if_neg hne, if_pos (by simp [hm])] at hacc
      exact absurd hacc (by simp)
    · rfl

/-- Witness for the amended C6 at `v = "2024-05-06"`, `today = 2025-06-15`. -/
theorem C6_amended_witness :
    ((validate_optional_date ⟨2025, 6, 15⟩ "2024-05-06" "review_date" false).1 = true ↔
      ∃ d, parse_date 2025 "2024-05-06" = some d ∧ d.blt MIN_ALLOWED_DATE = false ∧
        PDate.blt ⟨2025, 6, 15⟩ d = false) ∧
    ((validate_optional_date ⟨2025, 6, 15⟩ "2024-05-06" "review_date" true).1 = true →
      strictIsoMatch (normalize_text "2024-05-06").data = true) :=
  C6_amended_accept_characterization ⟨2025, 6, 15⟩ "2024-05-06" "review_date" (by decide)

/-- C7: every accepted non-blank date input normalizes to a full
`YYYY-MM-DD` string, and re-parsing the normalized output yields the same
calendar date as parsing the original input. -/
theorem C7_normalization_roundtrip (today : PDate) (v f : String) (strict : Bool)
    (hne : ¬(normalize_text v = ""))
    (hacc : (validate_optional_date today v f strict).1 = true) :
    strictIsoMatch ((validate_optional_date today v f strict).2.2).data = true ∧
    parse_date today.year ((validate_optional_date today v f strict).2.2) =
      parse_date today.year v := by
  obtain ⟨d, hp, _, _, he⟩ := validate_optional_date_accepted hne hacc
  rw [he]
  dsimp only
  refine ⟨strictIsoMatch_isoformat d, ?_⟩
  rw [parse_date_isoformat (parse_date_valid hp), hp]

/-- Witness for C7 at `v = "2024-01"` (which normalizes to `2024-01-01`). -/
theorem C7_normalization_roundtrip_witness :
    strictIsoMatch
      ((validate_optional_date ⟨2025, 6, 15⟩ "2024-01" "review_date" false).2.2).data =
        true ∧
    parse_date 2025
      ((validate_optional_date ⟨2025, 6, 15⟩ "2024-01" "review_date" false).2.2) =
      parse_date 2025 "2024-01" :=
  C7_normalization_roundtrip ⟨2025, 6, 15⟩ "2024-01" "review_date" false
    (by decide) (by decide)

/-- C8: an edit payload containing a date below the configured minimum or
a future date is rejected as a whole with a field-specific error, before
the lock is acquired (empty event trace), and neither the edit log nor the
audit log changes. -/
theorem C8_out_of_range_rejected (today : PDate) (editLog : List EditEntry)
    (auditLog : List AuditEntry) (cid author : String) (vals : EditValues)
    (eid ts aid ats : String)
    (h : (∃ d, parse_date today.year vals.review_date = some d ∧
            (d.blt MIN_ALLOWED_DATE = true ∨ today.blt d = true)) ∨
         (∃ d, parse_date today.year vals.layer_date = some d ∧
            (d.blt MIN_ALLOWED_DATE = true ∨ today.blt d = true)) ∨
         (∃ d, parse_date today.year vals.test_date = some d ∧
            (d.blt MIN_ALLOWED_DATE = true ∨ today.blt d = true))) :
    ∃ msg, process_edit today editLog auditLog cid author vals eid ts aid ats =
        (editLog, auditLog, [], some msg) ∧
      ∃ f rest, (f = "review_date" ∨ f = "layer_date" ∨ f = "test_date") ∧
        msg = f ++ rest := by
  obtain ⟨msg, hv, f, rest, hf, hm⟩ := validate_edit_payload_field_error h
  refine ⟨msg, ?_, f, rest, hf, hm⟩
  unfold process_edit persist_user_edit
  rw [hv]
  rfl

/-- Witness for C8: review date `2000-01-01` (below the 2022-01-01
minimum) at `today = 2025-06-15`. -/
theorem C8_out_of_range_rejected_witness :
    ∃ msg, process_edit ⟨2025, 6, 15⟩ [] [] "c1" "alice"
        ⟨"2000-01-01", "", "", ""⟩ "e1" "t1" "a1" "t2" = ([], [], [], some msg) ∧
      ∃ f rest, (f = "review_date" ∨ f = "layer_date" ∨ f = "test_date") ∧
        msg = f ++ rest :=
  C8_out_of_range_rejected ⟨2025, 6, 15⟩ [] [] "c1" "alice"
    ⟨"2000-01-01", "", "", ""⟩ "e1" "t1" "a1" "t2"
    (Or.inl ⟨⟨2000, 1, 1⟩, by decide, Or.inl (by decide)⟩)

/-- C9: the atomic writer leaves the target file holding either its
previous content or the new content; any failure before the rename leaves
the target byte-for-byte unchanged, and on success the single rename
commits the new content. -/
theorem C9_atomic_write_safety (fs : FileSys) (content : String)
    (target tmp : String) (hne : tmp ≠ target) :
    (∀ outcome, atomic_write_dataframe fs content target tmp outcome target = fs target ∨
      atomic_write_dataframe fs content target tmp outcome target = some content) ∧
    atomic_write_dataframe fs content target tmp .failCreatingTemp target = fs target ∧
    atomic_write_dataframe fs content target tmp .failBeforeRename target = fs target ∧
    atomic_write_dataframe fs content target tmp .ok target = some content := by
  have hb : atomic_write_dataframe fs content target tmp .failBeforeRename target =
      fs target := by
    simp only [atomic_write_dataframe, updateFS]
    rw [if_neg (Ne.symm hne)]
  have hok : atomic_write_dataframe fs content target tmp .ok target = some content := by
    simp [atomic_write_dataframe, updateFS, Ne.symm hne]
  refine ⟨?_, rfl, hb, hok⟩
  intro outcome
  cases outcome
  · exact Or.inr hok
  · exact Or.inl rfl
  · exact Or.inl hb

/-- Witness for C9 on a one-file file system holding `"old"`. -/
theorem C9_atomic_write_safety_witness :
    atomic_write_dataframe
        (fun p => if p = "data.csv" then some "old" else none) "new" "data.csv"
        "data.csv.tmp" .failBeforeRename "data.csv" = some "old" ∧
    atomic_write_dataframe
        (fun p => if p = "data.csv" then some "old" else none) "new" "data.csv"
        "data.csv.tmp" .ok "data.csv" = some "new" := by
  have h := C9_atomic_write_safety
    (fun p => if p = "data.csv" then some "old" else none) "new" "data.csv"
    "data.csv.tmp" (by decide)
  exact ⟨by rw [h.2.2.1]; decide, h.2.2.2⟩

end Dashboard
